import Mathlib

/-!
Verification development for the mood-tracker screens repository.

The definitions below are a shallow embedding of the pure aggregation and
classification logic of the two source files:

* `HomeScreen` (src/unnamed/part_000): streak computation in
  `refreshMoodData`, the historical day average and week average in
  `loadHistoricalMoodData`, the weekly average in `refreshMoodData`, and the
  emoji/colour display that rounds the weekly average.
* `AdvancedMoodAnalyticsScreen` (src/screens/AdvancedMoodAnalyticsScreen.tsx):
  `analyzeMoodPatterns`, i.e. weekday buckets, the Peak Day / Dip Day /
  Weekend-vs-Weekday rules, and keyword trigger extraction.

Calendar dates are modelled as integers counting days since the Unix epoch:
the source stores ISO `YYYY-MM-DD` strings and compares them lexically, which
is order-isomorphic to the integer day number, and `new Date(iso).getDay()`
equals `(day + 4) mod 7` (1970-01-01 was a Thursday).  JavaScript numbers are
modelled as rationals, and the fallible "no data" results as `Option`.
-/

/-- One mood entry: a calendar date (epoch day number), a rating and an
optional free-text note (`details`).  Mirrors the `MoodEntry` rows consumed by
both screens. -/
structure Entry where
  date : Int
  rating : ℚ
  details : Option (List Char)
deriving DecidableEq, Repr

/-- `new Date(entry.date).getDay()`: weekday index, 0 = Sunday .. 6 = Saturday. -/
def getDay (e : Entry) : Nat := ((e.date + 4) % 7).toNat

/-- `entries.reduce((sum, entry) => sum + entry.rating, 0)`. -/
def sumRatings (l : List Entry) : ℚ := l.foldl (fun s e => s + e.rating) 0

/-- Arithmetic mean of the ratings (division by zero yields 0, matching the
`: 0` defaults the source uses for empty groups). -/
def meanRating (l : List Entry) : ℚ := sumRatings l / (l.length : ℚ)

/-! ### Streak computation (`refreshMoodData`, src/unnamed/part_000 lines 374-404)

The source starts from `allEntries[0]` (the query orders dates descending),
builds a map of all entry dates, and walks backwards one day at a time for
`i = 1 .. 365`, stopping at the first missing day. -/

/-- The backward walk of the streak loop: `fuel` many iterations remain, `i`
is the current day offset below the most recent date.  Returns how many
consecutive offsets starting at `i` are present in `dates`. -/
def streakWalk (dates : List Int) (recent : Int) : Nat → Nat → Nat
  | 0, _ => 0
  | fuel + 1, i => if dates.contains (recent - (i : Int)) then streakWalk dates recent fuel (i + 1) + 1 else 0

/-- The streak computation of `refreshMoodData`: 0 for no entries, otherwise
1 for the most recent entry plus the backward walk over at most 365 previous
days.  `entries` is the query result, ordered by date descending. -/
def computeStreak (entries : List Entry) : Nat :=
  match entries with
  | [] => 0
  | e :: _ => 1 + streakWalk (entries.map (fun x => x.date)) e.date 365 1

/-! ### A generic stable insertion sort

`Array.prototype.sort` with comparator `c` is stable and puts `a` before `b`
when `c(a, b) < 0`; we model it by a stable insertion sort where
`lt a b = true` means the comparator orders `a` strictly before `b`. -/

/-- Insert `x` into `s`, skipping past elements the comparator orders
strictly before `x`; stable for elements comparing equal. -/
def insertStable (lt : α → α → Bool) (x : α) : List α → List α
  | [] => [x]
  | y :: ys => if lt y x then y :: insertStable lt x ys else x :: y :: ys

/-- Stable sort by the comparator order `lt` (JavaScript `sort` semantics for
a consistent comparator). -/
def sortStable (lt : α → α → Bool) : List α → List α
  | [] => []
  | x :: xs => insertStable lt x (sortStable lt xs)

theorem insertStable_perm (lt : α → α → Bool) (x : α) (s : List α) :
    List.Perm (insertStable lt x s) (x :: s) := by
  induction s with
  | nil => simp [insertStable]
  | cons y ys ih =>
    by_cases h : lt y x = true
    · simpa [insertStable, h] using ((ih.cons y).trans (List.Perm.swap x y ys))
    · simp [insertStable, h]

theorem sortStable_perm (lt : α → α → Bool) (l : List α) : List.Perm (sortStable lt l) l := by
  induction l with
  | nil => simp [sortStable]
  | cons x xs ih => exact ((insertStable_perm lt x (sortStable lt xs)).trans (ih.cons x))

theorem mem_sortStable (lt : α → α → Bool) (l : List α) (a : α) :
    a ∈ sortStable lt l ↔ a ∈ l := (sortStable_perm lt l).mem_iff

/-- The head of the stably sorted list, computed by a single scan: the first
element of `l` that no later element is ordered strictly before. -/
def firstBest (lt : α → α → Bool) : List α → Option α
  | [] => none
  | x :: xs => match firstBest lt xs with
    | none => some x
    | some m => if lt m x then some m else some x

theorem head?_insertStable (lt : α → α → Bool) (x : α) (s : List α) :
    (insertStable lt x s).head? = some (match s.head? with
      | none => x
      | some y => if lt y x then y else x) := by
  cases s with
  | nil => simp [insertStable]
  | cons y ys =>
    by_cases h : lt y x = true
    · simp [insertStable, h]
    · simp [insertStable, h]

theorem head?_sortStable (lt : α → α → Bool) (l : List α) :
    (sortStable lt l).head? = firstBest lt l := by
  induction l with
  | nil => rfl
  | cons x xs ih =>
    rw [sortStable, head?_insertStable, firstBest, ← ih]
    cases (sortStable lt xs).head? with
    | none => rfl
    | some m => by_cases h : lt m x = true <;> simp [h]

/-! ### Streak: supporting lemmas and the spec-side description

`specStreak` follows the spec's wording: sort the distinct entry dates
descending and, starting from the most recent date, count consecutive
calendar days present, halting at the first gap.  Its walk is fuelled by the
number of distinct dates, which provably never truncates the count
(`streakWalk_fuel_sufficient`), so it is the uncapped consecutive-day count;
the code's walk is fuelled by the literal `365` of the source loop. -/

/-- The spec's "sort distinct dates descending". -/
def sortedDistinctDatesDesc (entries : List Entry) : List Int :=
  sortStable (fun a b => decide (b < a)) ((entries.map (fun e => e.date)).dedup)

/-- Claim-side streak: the algorithm described by the spec, with no cap on
how far back the walk may go (fuel equal to the number of distinct dates is
always enough to reach the first gap). -/
def specStreak (entries : List Entry) : Nat :=
  match sortedDistinctDatesDesc entries with
  | [] => 0
  | r :: tl => 1 + streakWalk (r :: tl) r (r :: tl).length 1

theorem streakWalk_min (dates : List Int) (recent : Int) :
    ∀ f g i, f ≤ g →
      streakWalk dates recent f i = min (streakWalk dates recent g i) f := by
  intro f
  induction f with
  | zero => intro g i _; simp [streakWalk]
  | succ f ih =>
    intro g i hfg
    cases g with
    | zero => omega
    | succ g =>
      rw [streakWalk, streakWalk]
      by_cases hc : dates.contains (recent - (i : Int)) = true
      · rw [if_pos hc, if_pos hc, ih g (i + 1) (by omega)]
        omega
      · rw [if_neg hc, if_neg hc]
        omega

theorem streakWalk_le (dates : List Int) (recent : Int) (f i : Nat) :
    streakWalk dates recent f i ≤ f := by
  have h := streakWalk_min dates recent f f i (le_refl f)
  omega

theorem streakWalk_gap (dates : List Int) (recent : Int) :
    ∀ f i k,
      (∀ j, j < k → dates.contains (recent - ((i + j : Nat) : Int)) = true) →
      dates.contains (recent - ((i + k : Nat) : Int)) = false →
      streakWalk dates recent f i = min k f := by
  intro f
  induction f with
  | zero => intro i k _ _; simp [streakWalk]
  | succ f ih =>
    intro i k hpre hgap
    cases k with
    | zero =>
      have h0 : dates.contains (recent - (i : Int)) = false := by
        simpa using hgap
      have h0' : ¬ dates.contains (recent - (i : Int)) = true := by
        rw [h0]; simp
      rw [streakWalk, if_neg h0']
      omega
    | succ k =>
      have h0 : dates.contains (recent - (i : Int)) = true := by
        simpa using hpre 0 (by omega)
      rw [streakWalk, if_pos h0]
      have hpre' : ∀ j, j < k →
          dates.contains (recent - ((i + 1 + j : Nat) : Int)) = true := by
        intro j hj
        have := hpre (j + 1) (by omega)
        have harith : i + (j + 1) = i + 1 + j := by omega
        rwa [harith] at this
      have hgap' : dates.contains (recent - ((i + 1 + k : Nat) : Int)) = false := by
        have harith : i + (k + 1) = i + 1 + k := by omega
        rwa [harith] at hgap
      rw [ih (i + 1) k hpre' hgap']
      omega

theorem streakWalk_saturate (dates : List Int) (recent : Int) :
    ∀ f i, streakWalk dates recent f i = f →
      ∀ j, j < f → dates.contains (recent - ((i + j : Nat) : Int)) = true := by
  intro f
  induction f with
  | zero => intro i _ j hj; omega
  | succ f ih =>
    intro i hwalk j hj
    by_cases hc : dates.contains (recent - (i : Int)) = true
    · rw [streakWalk, if_pos hc] at hwalk
      cases j with
      | zero => simpa using hc
      | succ j =>
        have := ih (i + 1) (by omega) j (by omega)
        have harith : i + 1 + j = i + (j + 1) := by omega
        rwa [harith] at this
    · rw [streakWalk, if_neg hc] at hwalk
      omega

/-- If `recent` is itself among the (distinct) dates, fuelling the walk with
the number of distinct dates never truncates it: a full-fuel return value
would exhibit `length + 1` distinct members of the list. -/
theorem streakWalk_fuel_sufficient (ds : List Int) (recent : Int)
    (hmem : recent ∈ ds) :
    streakWalk ds recent ds.length 1 < ds.length := by
  rcases Nat.lt_or_ge (streakWalk ds recent ds.length 1) ds.length with h | h
  · exact h
  · exfalso
    have heq : streakWalk ds recent ds.length 1 = ds.length :=
      le_antisymm (streakWalk_le ds recent ds.length 1) h
    have hsat := streakWalk_saturate ds recent ds.length 1 heq
    set L := ds.length with hL
    -- the list of `L + 1` distinct values that all belong to `ds`
    set bad : List Int := recent :: (List.range L).map (fun j => recent - ((1 + j : Nat) : Int)) with hbad
    have hbadnd : bad.Nodup := by
      rw [hbad, List.nodup_cons]
      constructor
      · intro hx
        rcases List.mem_map.mp hx with ⟨j, _, hj⟩
        omega
      · have hinj : Function.Injective (fun j : Nat => recent - ((1 + j : Nat) : Int)) := by
          intro j₁ j₂ hj
          simp only at hj
          omega
        exact (List.nodup_range L).map hinj
    have hbadsub : bad ⊆ ds := by
      intro x hx
      rcases List.mem_cons.mp hx with hx | hx
      · rw [hx]; exact hmem
      · rcases List.mem_map.mp hx with ⟨j, hjr, hj⟩
        have hj' : j < L := List.mem_range.mp hjr
        have := hsat j hj'
        rw [← hj]
        exact List.elem_iff.mp this
    have hlen : bad.length ≤ ds.length := (hbadnd.subperm hbadsub).length_le
    have : bad.length = L + 1 := by simp [hbad]
    omega

theorem streakWalk_congr (d₁ d₂ : List Int) (recent : Int)
    (h : ∀ x : Int, x ∈ d₁ ↔ x ∈ d₂) :
    ∀ f i, streakWalk d₁ recent f i = streakWalk d₂ recent f i := by
  have hc : ∀ y : Int, d₁.contains y = d₂.contains y := by
    intro y
    by_cases hy : y ∈ d₁
    · have h1 : d₁.contains y = true := List.elem_iff.mpr hy
      have h2 : d₂.contains y = true := List.elem_iff.mpr ((h y).mp hy)
      rw [h1, h2]
    · have h1 : d₁.contains y = false :=
        Bool.eq_false_iff.mpr (fun hcon => hy (List.elem_iff.mp hcon))
      have h2 : d₂.contains y = false :=
        Bool.eq_false_iff.mpr (fun hcon => hy ((h y).mpr (List.elem_iff.mp hcon)))
      rw [h1, h2]
  intro f
  induction f with
  | zero => intro i; rfl
  | succ f ih =>
    intro i
    rw [streakWalk, streakWalk, hc]
    by_cases h2 : d₂.contains (recent - (i : Int)) = true
    · rw [if_pos h2, if_pos h2, ih]
    · rw [if_neg h2, if_neg h2]

theorem firstBest_eq_none (lt : α → α → Bool) (l : List α) :
    firstBest lt l = none ↔ l = [] := by
  cases l with
  | nil => simp [firstBest]
  | cons x xs =>
    simp only [firstBest]
    cases firstBest lt xs with
    | none => simp
    | some m => by_cases h : lt m x = true <;> simp [h]

/-- The first element the descending-by-`key` comparator sort puts on top:
it splits the input into a strictly-smaller prefix, the element itself, and a
no-larger suffix (so it is the first element attaining the maximum key). -/
theorem firstBest_split {β : Type} [LinearOrder β] (key : α → β) :
    ∀ (l : List α) (b : α),
      firstBest (fun a c => decide (key c < key a)) l = some b →
      ∃ l₁ l₂, l = l₁ ++ b :: l₂ ∧ (∀ c ∈ l₁, key c < key b) ∧ (∀ c ∈ l₂, key c ≤ key b) := by
  intro l
  induction l with
  | nil => intro b h; simp [firstBest] at h
  | cons x xs ih =>
    intro b h
    rw [firstBest] at h
    cases hfb : firstBest (fun a c => decide (key c < key a)) xs with
    | none =>
      rw [hfb] at h
      have h' : some x = some b := h
      have hxs : xs = [] := (firstBest_eq_none _ xs).mp hfb
      simp only [Option.some.injEq] at h'
      refine ⟨[], [], ?_, by simp, by simp [hxs]⟩
      simp [← h', hxs]
    | some m =>
      rw [hfb] at h
      have h' : (if decide (key x < key m) = true then some m else some x) = some b := h
      by_cases hlt : key x < key m
      · rw [if_pos (by simpa using hlt)] at h'
        simp only [Option.some.injEq] at h'
        rcases ih m hfb with ⟨l₁, l₂, hsplit, hl₁, hl₂⟩
        subst h'
        refine ⟨x :: l₁, l₂, by simp [hsplit], ?_, hl₂⟩
        intro c hc
        rcases List.mem_cons.mp hc with rfl | hc
        · exact hlt
        · exact hl₁ c hc
      · rw [if_neg (by simpa using hlt)] at h'
        simp only [Option.some.injEq] at h'
        subst h'
        refine ⟨[], xs, by simp, by simp, ?_⟩
        rcases ih m hfb with ⟨l₁, l₂, hsplit, hl₁, hl₂⟩
        intro c hc
        have hm : key m ≤ key x := le_of_not_lt hlt
        rw [hsplit] at hc
        rcases List.mem_append.mp hc with hc | hc
        · exact le_of_lt (lt_of_lt_of_le (hl₁ c hc) hm)
        · rcases List.mem_cons.mp hc with rfl | hc
          · exact hm
          · exact le_trans (hl₂ c hc) hm

/-! ### C1: the streak claim -/

/-- The code's streak equals the spec's uncapped streak clamped to 366:
the source loop checks at most 365 previous days. -/
theorem computeStreak_eq_min_spec (entries : List Entry)
    (hsorted : entries.Pairwise (fun a b => b.date ≤ a.date)) :
    computeStreak entries = min (specStreak entries) 366 := by
  cases entries with
  | nil => rfl
  | cons e rest =>
    have hsorted' : ∀ x ∈ rest, x.date ≤ e.date := by
      intro x hx
      exact (List.pairwise_cons.mp hsorted).1 x hx
    set dates := (e :: rest).map (fun x => x.date) with hdates
    set ds := sortedDistinctDatesDesc (e :: rest) with hds
    have hmemiff : ∀ x : Int, x ∈ ds ↔ x ∈ dates := by
      intro x
      rw [hds, sortedDistinctDatesDesc, mem_sortStable, List.mem_dedup]
    have hedate : e.date ∈ dates := by
      rw [hdates]; exact List.mem_map.mpr ⟨e, by simp, rfl⟩
    have heds : e.date ∈ ds := (hmemiff e.date).mpr hedate
    cases hdsc : ds with
    | nil => rw [hdsc] at heds; simp at heds
    | cons r tl =>
      -- the head of the descending sort is the maximal date, i.e. `e.date`
      have hhead : firstBest (fun a b => decide (b < a)) ((dates).dedup) = some r := by
        have h1 := head?_sortStable (fun a b : Int => decide (b < a)) (dates.dedup)
        have h2 : sortStable (fun a b : Int => decide (b < a)) (dates.dedup) = ds := rfl
        rw [h2, hdsc] at h1
        simpa using h1.symm
      have hsplit := firstBest_split (fun x : Int => x) (dates.dedup) r hhead
      rcases hsplit with ⟨l₁, l₂, hdec, hl₁, hl₂⟩
      have hrmax : ∀ c ∈ dates.dedup, c ≤ r := by
        intro c hc
        rw [hdec] at hc
        rcases List.mem_append.mp hc with hc | hc
        · exact le_of_lt (hl₁ c hc)
        · rcases List.mem_cons.mp hc with rfl | hc
          · exact le_refl _
          · exact hl₂ c hc
      have hrmem : r ∈ dates := by
        have : r ∈ dates.dedup := by rw [hdec]; simp
        exact List.mem_dedup.mp this
      have hre : r = e.date := by
        have h1 : e.date ≤ r := hrmax e.date (List.mem_dedup.mpr hedate)
        have h2 : r ≤ e.date := by
          rcases List.mem_map.mp hrmem with ⟨x, hx, hxd⟩
          rcases List.mem_cons.mp hx with rfl | hx
          · omega
          · rw [← hxd]; exact hsorted' x hx
        omega
      -- reduce both sides to walks over `dates` with a common large fuel
      set L := (r :: tl).length with hL
      set F := max 365 L with hF
      set W := streakWalk dates e.date F 1 with hW
      have hwalkeq : ∀ f i, streakWalk ds e.date f i = streakWalk dates e.date f i :=
        streakWalk_congr ds dates e.date hmemiff
      have h365 : streakWalk dates e.date 365 1 = min W 365 :=
        streakWalk_min dates e.date 365 F 1 (by omega)
      have hLeq : streakWalk ds e.date L 1 = min W L := by
        rw [hwalkeq]
        exact streakWalk_min dates e.date L F 1 (by omega)
      have hfuel : streakWalk ds e.date ds.length 1 < ds.length :=
        streakWalk_fuel_sufficient ds e.date heds
      have hdsL : ds.length = L := by rw [hdsc]
      have hWlt : W < L := by
        rw [hdsL] at hfuel
        rw [hLeq] at hfuel
        omega
      have hcode : computeStreak (e :: rest) = 1 + streakWalk dates e.date 365 1 := rfl
      have hspec : specStreak (e :: rest) = 1 + streakWalk ds e.date L 1 := by
        have hstep : specStreak (e :: rest) = 1 + streakWalk (r :: tl) r (r :: tl).length 1 := by
          unfold specStreak
          rw [← hds, hdsc]
        rw [hstep, ← hdsc, hre, hdsL]
      rw [hcode, hspec, h365, hLeq]
      omega

/-- `n` consecutive daily entries, most recent date `n - 1`, ordered
descending (as the source's query returns them). -/
def longRunN (n : Nat) : List Entry :=
  (List.range n).reverse.map (fun i : Nat => ⟨(i : Int), 3, none⟩)

/-- 367 consecutive daily entries, most recent date 366. -/
def longRun : List Entry := longRunN 367

theorem longRunN_dates_mem (n : Nat) :
    ∀ x : Int, x ∈ (longRunN n).map (fun e => e.date) ↔ 0 ≤ x ∧ x < n := by
  intro x
  rw [longRunN, List.map_map]
  constructor
  · intro hx
    rcases List.mem_map.mp hx with ⟨i, hi, hix⟩
    have hi' : i < n := List.mem_range.mp (List.mem_reverse.mp hi)
    have hx' : ((i : Int)) = x := hix
    omega
  · intro hx
    refine List.mem_map.mpr ⟨x.toNat, ?_, ?_⟩
    · exact List.mem_reverse.mpr (List.mem_range.mpr (by omega))
    · show ((x.toNat : Int)) = x
      omega

theorem longRunN_sorted (n : Nat) :
    (longRunN n).Pairwise (fun a b => b.date ≤ a.date) := by
  rw [longRunN, List.pairwise_map, List.pairwise_reverse]
  refine (List.pairwise_lt_range n).imp ?_
  intro a b h
  show ((a : Int)) ≤ (b : Int)
  omega

theorem longRun_sorted : longRun.Pairwise (fun a b => b.date ≤ a.date) :=
  longRunN_sorted 367

theorem specStreak_longRunN (n : Nat) (hn : 1 ≤ n) :
    specStreak (longRunN n) = n := by
  set D := (longRunN n).map (fun e => e.date) with hD
  have hmemD : ∀ x : Int, x ∈ D ↔ 0 ≤ x ∧ x < n := longRunN_dates_mem n
  have hDnodup : D.Nodup := by
    rw [hD, longRunN, List.map_map]
    refine List.Nodup.map ?_ (List.nodup_reverse.mpr (List.nodup_range n))
    intro a b hab
    have : ((a : Int)) = b := hab
    omega
  have hdedup : D.dedup = D := hDnodup.dedup
  set ds := sortStable (fun a b : Int => decide (b < a)) D with hds2
  have hds : sortedDistinctDatesDesc (longRunN n) = ds := by
    rw [sortedDistinctDatesDesc, ← hD, hdedup]
  have hdsmem : ∀ x : Int, x ∈ ds ↔ 0 ≤ x ∧ x < n :=
    fun x => (mem_sortStable _ _ x).trans (hmemD x)
  have hdslen : ds.length = n := by
    rw [(sortStable_perm _ D).length_eq, hD, longRunN, List.map_map]
    simp
  have hmax : ((n : Int) - 1) ∈ ds := (hdsmem _).mpr (by omega)
  cases hdsc : ds with
  | nil =>
    rw [hdsc] at hmax
    simp at hmax
  | cons r tl =>
    have hhead : firstBest (fun a b : Int => decide (b < a)) D = some r := by
      have h1 := head?_sortStable (fun a b : Int => decide (b < a)) D
      rw [← hds2, hdsc] at h1
      simpa using h1.symm
    rcases firstBest_split (fun x : Int => x) D r hhead with ⟨l₁, l₂, hdec, hl₁, hl₂⟩
    have hrmax : ∀ c ∈ D, c ≤ r := by
      intro c hc
      rw [hdec] at hc
      rcases List.mem_append.mp hc with hc | hc
      · exact le_of_lt (hl₁ c hc)
      · rcases List.mem_cons.mp hc with rfl | hc
        · exact le_refl _
        · exact hl₂ c hc
    have hr : r = (n : Int) - 1 := by
      have h1 : ((n : Int) - 1) ≤ r := hrmax _ ((hmemD _).mpr (by omega))
      have h2 : r < n := ((hmemD r).mp (List.mem_dedup.mp (by rw [hdedup, hdec]; simp))).2
      omega
    have hpre : ∀ j, j < n - 1 → ds.contains (r - ((1 + j : Nat) : Int)) = true := by
      intro j hj
      apply List.elem_iff.mpr
      apply (hdsmem _).mpr
      constructor <;> omega
    have hgap : ds.contains (r - ((1 + (n - 1) : Nat) : Int)) = false := by
      apply Bool.eq_false_iff.mpr
      intro hcon
      have := (hdsmem _).mp (List.elem_iff.mp hcon)
      omega
    have hwalk : streakWalk ds r n 1 = n - 1 := by
      have h := streakWalk_gap ds r n 1 (n - 1) hpre hgap
      omega
    have hfinal : specStreak (longRunN n) =
        1 + streakWalk (r :: tl) r (r :: tl).length 1 := by
      unfold specStreak
      rw [hds, hdsc]
    rw [hfinal, ← hdsc, hdslen, hwalk]
    omega

theorem specStreak_longRun : specStreak longRun = 367 :=
  specStreak_longRunN 367 (by omega)

/-- C1, counterexample: the claim describes an uncapped walk over consecutive
days ("halting at the first gap"), i.e. `specStreak`; but on 367 consecutive
daily entries the source's loop (`for i = 1; i <= 365`) stops after 365
checked days and returns 366 although no gap has been reached. -/
theorem computeStreak_cap_counterexample :
    specStreak longRun = 367 ∧ computeStreak longRun = 366 ∧
    computeStreak longRun ≠ specStreak longRun := by
  have h1 := specStreak_longRun
  have h2 : computeStreak longRun = 366 := by
    rw [computeStreak_eq_min_spec longRun longRun_sorted, h1]
    omega
  refine ⟨h1, h2, ?_⟩
  omega

/-- C1, amended: for entries ordered by date descending (as the source's
query returns them), `computeStreak` equals the spec's streak — distinct
dates sorted descending, consecutive days counted from the most recent date,
halting at the first gap — except that the walk inspects at most 365 previous
days, so the result is clamped to 366.  Entries sharing a date still count
once, the result is 0 for empty input, and the `{d, d-1, d-2}` /
gap-at-`d-1` examples behave as claimed. -/
theorem computeStreak_spec_amended :
    (∀ entries : List Entry, entries.Pairwise (fun a b => b.date ≤ a.date) →
      computeStreak entries = min (specStreak entries) 366) ∧
    computeStreak [] = 0 ∧
    computeStreak [⟨10, 3, none⟩, ⟨9, 4, none⟩, ⟨8, 5, none⟩] = 3 ∧
    computeStreak [⟨10, 3, none⟩, ⟨8, 5, none⟩] = 1 ∧
    computeStreak [⟨10, 3, none⟩, ⟨10, 4, none⟩, ⟨9, 5, none⟩] = 2 :=
  ⟨computeStreak_eq_min_spec, by decide, by decide, by decide, by decide⟩

/-- C1, witness: the amended equation applied to a concrete descending
two-entry run. -/
theorem computeStreak_spec_amended_witness :
    List.Pairwise (fun a b : Entry => b.date ≤ a.date)
      [⟨5, 2, none⟩, ⟨4, 3, none⟩] ∧
    computeStreak [⟨5, 2, none⟩, ⟨4, 3, none⟩] =
      min (specStreak [⟨5, 2, none⟩, ⟨4, 3, none⟩]) 366 :=
  ⟨by decide, computeStreak_spec_amended.1 _ (by decide)⟩

/-! ### Aggregates: day average, week averages, weekday buckets

`loadHistoricalMoodData` (src/unnamed/part_000): the day branch computes
`dayAverage = Math.round(sum / dayEntries.length)` when entries exist, else
keeps `null`; the week average is the raw mean over the window
`[target - 6, target]`, else `null`.  `refreshMoodData` computes the weekly
average over the window `[today - 7, today]` (`sevenDaysAgo.setDate(... - 7)`),
else `null`.  `analyzeMoodPatterns` buckets entries per weekday with mean or
`null`. -/

/-- JavaScript `Math.round`: round to nearest, halves toward positive
infinity (agrees with half-away-from-zero on the nonnegative values used
here). -/
def jsRound (q : ℚ) : Int := Int.floor (q + 1 / 2)

/-- The historical day average (src/unnamed/part_000 lines 215-220):
`null` without entries, otherwise `Math.round(sum / length)`.  The argument
is the query result for the single target date. -/
def dayMoodHist (dayEntries : List Entry) : Option Int :=
  if 0 < dayEntries.length then
    some (jsRound (sumRatings dayEntries / (dayEntries.length : ℚ)))
  else none

/-- The historical week window `[target - 6, target]` (lines 229-240). -/
def histWeekWindow (entries : List Entry) (target : Int) : List Entry :=
  entries.filter (fun e => decide (target - 6 ≤ e.date) && decide (e.date ≤ target))

/-- The historical week average (lines 242-252): raw mean over the 7-day
window ending at `target`, `null` when the window is empty. -/
def weekAverageHist (entries : List Entry) (target : Int) : Option ℚ :=
  let w := histWeekWindow entries target
  if 0 < w.length then some (sumRatings w / (w.length : ℚ)) else none

/-- The window of `refreshMoodData`'s weekly average (lines 406-414):
`sevenDaysAgo.setDate(getDate() - 7)`, filter `startDate <= date <= today`. -/
def refreshWeekWindow (entries : List Entry) (today : Int) : List Entry :=
  entries.filter (fun e => decide (today - 7 ≤ e.date) && decide (e.date ≤ today))

/-- `refreshMoodData`'s weekly average (lines 419-427): raw mean over its
window, `null` when empty. -/
def weeklyAverageRefresh (entries : List Entry) (today : Int) : Option ℚ :=
  let w := refreshWeekWindow entries today
  if 0 < w.length then some (sumRatings w / (w.length : ℚ)) else none

/-- `daysOfWeek` of both screens. -/
def daysOfWeek : List String :=
  ["Sunday", "Monday", "Tuesday", "Wednesday", "Thursday", "Friday", "Saturday"]

/-- One weekday bucket of `analyzeMoodPatterns`. -/
structure DayBucket where
  day : String
  entries : List Entry
  averageMood : Option ℚ
deriving DecidableEq

/-- `analyzeMoodPatterns` lines 85-98: group entries by day of week,
`averageMood` is the mean when the bucket is non-empty, else `null`. -/
def entriesByDay (entries : List Entry) : List DayBucket :=
  daysOfWeek.map (fun day =>
    let dayEntries := entries.filter (fun e => daysOfWeek.getD (getDay e) "" == day)
    { day := day
      entries := dayEntries
      averageMood :=
        if 0 < dayEntries.length then
          some (sumRatings dayEntries / (dayEntries.length : ℚ))
        else none })

/-- C2: every aggregate — historical day average, both week averages, and
each weekday bucket mean — returns `none` exactly when its scope holds no
entries, so "no data" is distinguished from a computed 0 at the type level. -/
theorem aggregates_none_iff_empty :
    (∀ dayEntries : List Entry, dayMoodHist dayEntries = none ↔ dayEntries = []) ∧
    (∀ (entries : List Entry) (target : Int),
      weekAverageHist entries target = none ↔ histWeekWindow entries target = []) ∧
    (∀ (entries : List Entry) (today : Int),
      weeklyAverageRefresh entries today = none ↔ refreshWeekWindow entries today = []) ∧
    (∀ (entries : List Entry), ∀ b ∈ entriesByDay entries,
      (b.averageMood = none ↔ b.entries = [])) := by
  refine ⟨?_, ?_, ?_, ?_⟩
  · intro dayEntries
    rw [dayMoodHist]
    cases dayEntries <;> simp
  · intro entries target
    rw [weekAverageHist]
    cases h : histWeekWindow entries target <;> simp [h]
  · intro entries today
    rw [weeklyAverageRefresh]
    cases h : refreshWeekWindow entries today <;> simp [h]
  · intro entries b hb
    rcases List.mem_map.mp hb with ⟨day, _, hday⟩
    rw [← hday]
    simp only
    cases h : entries.filter (fun e => daysOfWeek.getD (getDay e) "" == day) <;> simp [h]

/-- C2, witness: the bucket clause applied to the first bucket of the empty
entry list, and the day-average clause at a concrete non-empty list. -/
theorem aggregates_none_iff_empty_witness :
    ((entriesByDay []).getD 0 ⟨"", [], none⟩ ∈ entriesByDay ([] : List Entry)) ∧
    (((entriesByDay []).getD 0 ⟨"", [], none⟩).averageMood = none ↔
      ((entriesByDay []).getD 0 ⟨"", [], none⟩).entries = []) :=
  ⟨by decide,
   aggregates_none_iff_empty.2.2.2 [] _ (by decide)⟩

/-- C3: `refreshMoodData` computes its "last 7 days" weekly average over the
window `[today - 7, today]`, which spans 8 calendar days: with a single entry
exactly 7 days before `today` it returns that entry's rating, while the
7-day inclusive window of the claim (and of `loadHistoricalMoodData`, which
uses `target - 6`) contains no entries and yields `none`. -/
theorem weekAverage_window_bug :
    weeklyAverageRefresh [⟨0, 5, none⟩] 7 = some 5 ∧
    weekAverageHist [⟨0, 5, none⟩] 7 = none := by
  constructor
  · have hw : refreshWeekWindow [⟨0, 5, none⟩] 7 = [⟨0, 5, none⟩] := rfl
    rw [weeklyAverageRefresh]
    simp only [hw, sumRatings, List.foldl_cons, List.foldl_nil, List.length_cons,
      List.length_nil]
    norm_num
  · have hw : histWeekWindow [⟨0, 5, none⟩] 7 = [] := rfl
    rw [weekAverageHist]
    simp [hw]

/-- Claim-side day average: the raw (unrounded) mean, `none` without
entries — what the claim says is "preserved unrounded for numeric display". -/
def claimDayAverageRaw (dayEntries : List Entry) : Option ℚ :=
  if 0 < dayEntries.length then
    some (sumRatings dayEntries / (dayEntries.length : ℚ))
  else none

/-- The weekly-mood display of `HomeScreen` (src/unnamed/part_000 lines
998-1008): `weeklyAverage ? Math.round(weeklyAverage) : null` — the stored
raw weekly average is rounded only here; JavaScript truthiness also treats a
0 average like `null`. -/
def displayWeeklyMood (weeklyAverage : Option ℚ) : Option Int :=
  match weeklyAverage with
  | none => none
  | some q => if q = 0 then none else some (jsRound q)

theorem sumRatings_threeFour : sumRatings [⟨0, 3, none⟩, ⟨0, 4, none⟩] = 7 := by
  simp only [sumRatings, List.foldl_cons, List.foldl_nil]
  norm_num

theorem jsRound_seven_halves : jsRound (7 / 2) = 4 := by
  rw [jsRound]
  have h4 : (7 : ℚ) / 2 + 1 / 2 = ((4 : Int) : ℚ) := by norm_num
  rw [h4, Int.floor_intCast]

theorem dayMoodHist_threeFour : dayMoodHist [⟨0, 3, none⟩, ⟨0, 4, none⟩] = some 4 := by
  rw [dayMoodHist]
  simp only [sumRatings_threeFour, List.length_cons, List.length_nil]
  norm_num
  exact jsRound_seven_halves

theorem claimDayAverageRaw_threeFour :
    claimDayAverageRaw [⟨0, 3, none⟩, ⟨0, 4, none⟩] = some (7 / 2) := by
  rw [claimDayAverageRaw]
  simp only [sumRatings_threeFour, List.length_cons, List.length_nil]
  norm_num

/-- C9, counterexample: the historical day average is rounded at computation
time (`dayAverage = Math.round(sum / dayEntries.length)`), not at the
presentation boundary: with ratings 3 and 4 the stored value is the integer
4, and the raw mean 7/2 is not preserved. -/
theorem dayAverage_rounding_counterexample :
    dayMoodHist [⟨0, 3, none⟩, ⟨0, 4, none⟩] = some 4 ∧
    claimDayAverageRaw [⟨0, 3, none⟩, ⟨0, 4, none⟩] = some (7 / 2) ∧
    (dayMoodHist [⟨0, 3, none⟩, ⟨0, 4, none⟩]).map (fun z => (z : ℚ)) ≠
      claimDayAverageRaw [⟨0, 3, none⟩, ⟨0, 4, none⟩] := by
  refine ⟨dayMoodHist_threeFour, claimDayAverageRaw_threeFour, ?_⟩
  intro h
  rw [dayMoodHist_threeFour, claimDayAverageRaw_threeFour] at h
  have h' : some (((4 : Int) : ℚ)) = some ((7 : ℚ) / 2) := h
  have h2 := Option.some.inj h'
  norm_num at h2

/-- C9, amended: a day average of 3.5 rounds to 4 (half away from zero on the
nonnegative averages that occur), but the rounding of the historical day
average happens at computation time — the stored value is the rounded mean,
not the raw mean; only the weekly average is kept unrounded in state and
rounded at the emoji/colour display boundary. -/
theorem dayAverage_rounding_amended :
    (∀ dayEntries : List Entry, dayEntries ≠ [] →
      dayMoodHist dayEntries = (claimDayAverageRaw dayEntries).map jsRound) ∧
    (∀ q : ℚ, q ≠ 0 → displayWeeklyMood (some q) = some (jsRound q)) ∧
    (∀ (entries : List Entry) (today : Int),
      weeklyAverageRefresh entries today = none ∨
      weeklyAverageRefresh entries today =
        some (meanRating (refreshWeekWindow entries today))) ∧
    jsRound (7 / 2) = 4 ∧
    (∀ n : Nat, jsRound ((n : ℚ) + 1 / 2) = (n : Int) + 1) := by
  refine ⟨?_, ?_, ?_, jsRound_seven_halves, ?_⟩
  · intro dayEntries hne
    cases dayEntries with
    | nil => exact absurd rfl hne
    | cons a t => simp [dayMoodHist, claimDayAverageRaw]
  · intro q hq
    simp [displayWeeklyMood, hq]
  · intro entries today
    rw [weeklyAverageRefresh, meanRating]
    by_cases h : 0 < (refreshWeekWindow entries today).length
    · right; rw [if_pos h]
    · left; rw [if_neg h]
  · intro n
    rw [jsRound]
    have harith : ((n : ℚ) + 1 / 2) + 1 / 2 = ((n + 1 : Int) : ℚ) := by
      push_cast; ring
    rw [harith, Int.floor_intCast]

/-- C9, witness: the rounded-at-computation equation applied to a concrete
single-entry day, and the display clause at the average 7/2. -/
theorem dayAverage_rounding_amended_witness :
    ([⟨0, 3, none⟩] : List Entry) ≠ [] ∧
    dayMoodHist [⟨0, 3, none⟩] = (claimDayAverageRaw [⟨0, 3, none⟩]).map jsRound ∧
    ((7 : ℚ) / 2 ≠ 0 ∧ displayWeeklyMood (some (7 / 2)) = some (jsRound (7 / 2))) :=
  ⟨by decide, dayAverage_rounding_amended.1 _ (by decide),
   by norm_num, dayAverage_rounding_amended.2.1 (7 / 2) (by norm_num)⟩

/-! ### Pattern detection (`analyzeMoodPatterns`, AdvancedMoodAnalyticsScreen.tsx)

The source sorts a copy of the buckets that have data by average mood
(descending for Peak Day, ascending for Dip Day) and takes element 0;
`Array.prototype.sort` is stable, so ties keep the Sunday-first bucket
order.  The truthiness test `if (highestMoodDay && highestMoodDay.averageMood)`
also skips a bucket whose average is the number 0.  The weekend rule
partitions all entries into Monday-Friday and Saturday/Sunday groups,
defaults empty-group averages to 0, and fires only when both groups are
non-empty and the absolute difference exceeds 0.5. -/

/-- `Number.prototype.toFixed(1)` for the nonnegative values that occur in
the descriptions (round to nearest, ties up). -/
def toFixed1 (q : ℚ) : String :=
  let m := (Int.floor (q * 10 + 1 / 2)).toNat
  toString (m / 10) ++ "." ++ toString (m % 10)

/-- One derived pattern (`MoodPattern` of the source). -/
structure MoodPattern where
  day : String
  pattern : String
  description : String
deriving DecidableEq

/-- Monday-Friday group: `day >= 1 && day <= 5`. -/
def weekdayEntriesOf (entries : List Entry) : List Entry :=
  entries.filter (fun e => decide (1 ≤ getDay e) && decide (getDay e ≤ 5))

/-- Saturday/Sunday group: `day === 0 || day === 6`. -/
def weekendEntriesOf (entries : List Entry) : List Entry :=
  entries.filter (fun e => (getDay e == 0) || (getDay e == 6))

/-- `weekdayAvg`: mean of the Monday-Friday group, defaulting to 0 when the
group is empty (the source's `: 0`). -/
def weekdayAvgOf (entries : List Entry) : ℚ :=
  if 0 < (weekdayEntriesOf entries).length then
    sumRatings (weekdayEntriesOf entries) / ((weekdayEntriesOf entries).length : ℚ)
  else 0

/-- `weekendAvg`, analogous. -/
def weekendAvgOf (entries : List Entry) : ℚ :=
  if 0 < (weekendEntriesOf entries).length then
    sumRatings (weekendEntriesOf entries) / ((weekendEntriesOf entries).length : ℚ)
  else 0

/-- The buckets that have data, in Sunday-first order. -/
def bucketsWithData (entries : List Entry) : List DayBucket :=
  (entriesByDay entries).filter (fun b => b.averageMood.isSome)

/-- The Peak Day pattern text. -/
def mkPeakPattern (b : DayBucket) (q : ℚ) : MoodPattern :=
  ⟨b.day, "Peak Day",
    "You tend to feel your best on " ++ b.day ++ "s with an average mood of "
      ++ toFixed1 q ++ "."⟩

/-- The Dip Day pattern text. -/
def mkDipPattern (b : DayBucket) (q : ℚ) : MoodPattern :=
  ⟨b.day, "Dip Day",
    "You tend to experience lower moods on " ++ b.day ++ "s with an average mood of "
      ++ toFixed1 q ++ "."⟩

/-- The comparator `(a, b) => (b.averageMood || 0) - (a.averageMood || 0)`
(descending by average). -/
abbrev peakLt (a b : DayBucket) : Bool :=
  decide (b.averageMood.getD 0 < a.averageMood.getD 0)

/-- The comparator `(a, b) => (a.averageMood || 0) - (b.averageMood || 0)`
(ascending by average). -/
abbrev dipLt (a b : DayBucket) : Bool :=
  decide (a.averageMood.getD 0 < b.averageMood.getD 0)

/-- Peak Day rule: sort buckets with data by `(b.averageMood || 0)`
descending (stable), take the first, and emit unless its average is
null-or-zero (JavaScript truthiness). -/
def peakPattern (entries : List Entry) : Option MoodPattern :=
  match (sortStable peakLt (bucketsWithData entries)).head? with
  | none => none
  | some b =>
    match b.averageMood with
    | none => none
    | some q => if q = 0 then none else some (mkPeakPattern b q)

/-- Dip Day rule: ascending sort, otherwise identical. -/
def dipPattern (entries : List Entry) : Option MoodPattern :=
  match (sortStable dipLt (bucketsWithData entries)).head? with
  | none => none
  | some b =>
    match b.averageMood with
    | none => none
    | some q => if q = 0 then none else some (mkDipPattern b q)

/-- Weekend-vs-weekday rule (lines 129-162 of the analytics screen). -/
def weekendPattern (entries : List Entry) : Option MoodPattern :=
  if 1 / 2 < |weekdayAvgOf entries - weekendAvgOf entries| ∧
      0 < (weekdayEntriesOf entries).length ∧ 0 < (weekendEntriesOf entries).length then
    if weekdayAvgOf entries < weekendAvgOf entries then
      some ⟨"Weekend", "Weekend Boost",
        "Your mood tends to improve on weekends by "
          ++ toFixed1 (weekendAvgOf entries - weekdayAvgOf entries) ++ " points on average."⟩
    else
      some ⟨"Weekday", "Weekday Preference",
        "You tend to have better moods during weekdays compared to weekends by "
          ++ toFixed1 (weekdayAvgOf entries - weekendAvgOf entries) ++ " points."⟩
  else none

/-- The pattern list, pushed in source order: Peak Day, Dip Day, weekend rule. -/
def detectPatterns (entries : List Entry) : List MoodPattern :=
  (peakPattern entries).toList ++ (dipPattern entries).toList
    ++ (weekendPattern entries).toList

theorem getDay_lt (e : Entry) : getDay e < 7 := by
  rw [getDay]
  have h1 : 0 ≤ (e.date + 4) % 7 := Int.emod_nonneg _ (by norm_num)
  have h2 : (e.date + 4) % 7 < 7 := Int.emod_lt_of_pos _ (by norm_num)
  omega

/-- Every entry lands in the bucket of its weekday, so if every bucket is
empty the entry list is empty. -/
theorem entries_nil_of_buckets_empty (entries : List Entry)
    (h : ∀ b ∈ entriesByDay entries, b.averageMood = none) :
    entries = [] := by
  cases hent : entries with
  | nil => rfl
  | cons e t =>
    exfalso
    have hi : getDay e < daysOfWeek.length := by
      have := getDay_lt e
      simp [daysOfWeek]
      omega
    set dayName := daysOfWeek.getD (getDay e) "" with hdn
    have hmemday : dayName ∈ daysOfWeek := by
      rw [hdn, List.getD_eq_getElem daysOfWeek "" hi]
      exact List.getElem_mem hi
    set b : DayBucket :=
      { day := dayName
        entries := entries.filter (fun x => daysOfWeek.getD (getDay x) "" == dayName)
        averageMood :=
          if 0 < (entries.filter (fun x => daysOfWeek.getD (getDay x) "" == dayName)).length then
            some (sumRatings (entries.filter (fun x => daysOfWeek.getD (getDay x) "" == dayName)) /
              ((entries.filter (fun x => daysOfWeek.getD (getDay x) "" == dayName)).length : ℚ))
          else none } with hb
    have hbmem : b ∈ entriesByDay entries := by
      rw [entriesByDay]
      exact List.mem_map.mpr ⟨dayName, hmemday, rfl⟩
    have hefil : e ∈ entries.filter (fun x => daysOfWeek.getD (getDay x) "" == dayName) := by
      refine List.mem_filter.mpr ⟨by rw [hent]; exact List.mem_cons_self e t, ?_⟩
      rw [hdn]
      simp
    have hpos : 0 < (entries.filter (fun x => daysOfWeek.getD (getDay x) "" == dayName)).length :=
      List.length_pos.mpr (List.ne_nil_of_mem hefil)
    have hnone := h b hbmem
    rw [hb] at hnone
    simp only [if_pos hpos] at hnone
    exact Option.noConfusion hnone

/-- C6: when every weekday bucket is empty (`averageMood = none` for all
seven), `detectPatterns` selects no Peak or Dip bucket and emits no pattern
at all: the result is the empty list, not a zero-valued placeholder. -/
theorem detectPatterns_empty_buckets (entries : List Entry)
    (h : ∀ b ∈ entriesByDay entries, b.averageMood = none) :
    detectPatterns entries = [] := by
  have hnil := entries_nil_of_buckets_empty entries h
  subst hnil
  have hpk : peakPattern [] = none := rfl
  have hdp : dipPattern [] = none := rfl
  have hwk : weekendPattern [] = none := by
    rw [weekendPattern, if_neg]
    intro hcond
    simpa [weekdayEntriesOf] using hcond.2.1
  rw [detectPatterns, hpk, hdp, hwk]
  rfl

/-- C6, witness: the theorem applied to the empty entry list. -/
theorem detectPatterns_empty_buckets_witness :
    (∀ b ∈ entriesByDay ([] : List Entry), b.averageMood = none) ∧
    detectPatterns ([] : List Entry) = [] :=
  ⟨by decide, detectPatterns_empty_buckets [] (by decide)⟩

/-! ### Substring containment (JavaScript `String.prototype.includes`) -/

/-- `s.includes(sub)`: some suffix of `s` starts with `sub`. -/
def containsSub (s sub : List Char) : Bool :=
  (List.range (s.length + 1)).any (fun i => sub.isPrefixOf (List.drop i s))

theorem isPrefixOf_self_append (b c : List Char) : b.isPrefixOf (b ++ c) = true := by
  induction b with
  | nil => simp [List.isPrefixOf]
  | cons a b ih => simpa [List.isPrefixOf] using ih

theorem isPrefixOf_of_append_isPrefixOf (w t : List Char) :
    ∀ l : List Char, (w ++ t).isPrefixOf l = true → w.isPrefixOf l = true := by
  induction w with
  | nil => intro l _; simp [List.isPrefixOf]
  | cons a w ih =>
    intro l h
    cases l with
    | nil => simp [List.isPrefixOf] at h
    | cons b l =>
      simp only [List.cons_append, List.isPrefixOf, Bool.and_eq_true] at h ⊢
      exact ⟨h.1, ih l h.2⟩

/-- The middle block of a (left-associated) double append is a substring. -/
theorem containsSub_append_mid (a b c : List Char) :
    containsSub ((a ++ b) ++ c) b = true := by
  rw [containsSub]
  apply List.any_eq_true.mpr
  refine ⟨a.length, List.mem_range.mpr ?_, ?_⟩
  · simp
    omega
  · have h1 : ((a ++ b) ++ c).drop a.length = b ++ c := by
      rw [List.append_assoc]
      exact List.drop_left a (b ++ c)
    rw [h1]
    exact isPrefixOf_self_append b c

/-- A substring match for `w ++ t` is in particular a match for `w`. -/
theorem containsSub_of_append (s w t : List Char)
    (h : containsSub s (w ++ t) = true) : containsSub s w = true := by
  rw [containsSub] at h ⊢
  rcases List.any_eq_true.mp h with ⟨i, hi, hpre⟩
  exact List.any_eq_true.mpr ⟨i, hi, isPrefixOf_of_append_isPrefixOf w t _ hpre⟩

/-! ### Means and toFixed evaluation helpers -/

theorem sumRatings_acc (l : List Entry) :
    ∀ a : ℚ, l.foldl (fun s e => s + e.rating) a = a + (l.map (fun e => e.rating)).sum := by
  induction l with
  | nil => intro a; simp
  | cons e t ih =>
    intro a
    rw [List.foldl_cons, ih (a + e.rating)]
    simp
    ring

theorem sumRatings_eq_sum (l : List Entry) :
    sumRatings l = (l.map (fun e => e.rating)).sum := by
  rw [sumRatings, sumRatings_acc]
  simp

theorem length_le_sum_of_one_le (l : List ℚ) (h : ∀ x ∈ l, 1 ≤ x) :
    (l.length : ℚ) ≤ l.sum := by
  induction l with
  | nil => simp
  | cons x t ih =>
    have hx := h x (List.mem_cons_self x t)
    have ht := ih (fun y hy => h y (List.mem_cons_of_mem x hy))
    simp only [List.length_cons, List.sum_cons]
    push_cast
    linarith

/-- Non-empty mean over ratings that are all at least 1 is at least 1. -/
theorem meanRating_ge_one (l : List Entry) (hne : 0 < l.length)
    (h : ∀ e ∈ l, 1 ≤ e.rating) :
    1 ≤ sumRatings l / (l.length : ℚ) := by
  have hlen : (0 : ℚ) < (l.length : ℚ) := by exact_mod_cast hne
  rw [le_div_iff hlen, one_mul]
  rw [sumRatings_eq_sum]
  have := length_le_sum_of_one_le (l.map (fun e => e.rating)) (by
    intro x hx
    rcases List.mem_map.mp hx with ⟨e, he, hex⟩
    rw [← hex]
    exact h e he)
  simpa using this

/-- A bucket's mean under valid ratings is at least 1 (so never 0). -/
theorem bucket_avg_ge_one (entries : List Entry)
    (hval : ∀ e ∈ entries, 1 ≤ e.rating) (b : DayBucket)
    (hb : b ∈ entriesByDay entries) (q : ℚ) (hq : b.averageMood = some q) :
    1 ≤ q := by
  rcases List.mem_map.mp hb with ⟨day, _, hbeq⟩
  by_cases hl : 0 < (entries.filter (fun e => daysOfWeek.getD (getDay e) "" == day)).length
  · rw [← hbeq] at hq
    simp only [if_pos hl, Option.some.injEq] at hq
    rw [← hq]
    refine meanRating_ge_one _ hl ?_
    intro e he
    exact hval e (List.mem_filter.mp he).1
  · rw [← hbeq] at hq
    simp only [if_neg hl] at hq
    exact Option.noConfusion hq

/-- Ascending counterpart of `firstBest_split`. -/
theorem firstBest_split_asc {β : Type} [LinearOrder β] (key : α → β) :
    ∀ (l : List α) (b : α),
      firstBest (fun a c => decide (key a < key c)) l = some b →
      ∃ l₁ l₂, l = l₁ ++ b :: l₂ ∧ (∀ c ∈ l₁, key b < key c) ∧ (∀ c ∈ l₂, key b ≤ key c) := by
  intro l
  induction l with
  | nil => intro b h; simp [firstBest] at h
  | cons x xs ih =>
    intro b h
    rw [firstBest] at h
    cases hfb : firstBest (fun a c => decide (key a < key c)) xs with
    | none =>
      rw [hfb] at h
      have h' : some x = some b := h
      have hxs : xs = [] := (firstBest_eq_none _ xs).mp hfb
      simp only [Option.some.injEq] at h'
      refine ⟨[], [], ?_, by simp, by simp [hxs]⟩
      simp [← h', hxs]
    | some m =>
      rw [hfb] at h
      have h' : (if decide (key m < key x) = true then some m else some x) = some b := h
      by_cases hlt : key m < key x
      · rw [if_pos (by simpa using hlt)] at h'
        simp only [Option.some.injEq] at h'
        rcases ih m hfb with ⟨l₁, l₂, hsplit, hl₁, hl₂⟩
        subst h'
        refine ⟨x :: l₁, l₂, by simp [hsplit], ?_, hl₂⟩
        intro c hc
        rcases List.mem_cons.mp hc with rfl | hc
        · exact hlt
        · exact hl₁ c hc
      · rw [if_neg (by simpa using hlt)] at h'
        simp only [Option.some.injEq] at h'
        subst h'
        refine ⟨[], xs, by simp, by simp, ?_⟩
        rcases ih m hfb with ⟨l₁, l₂, hsplit, hl₁, hl₂⟩
        intro c hc
        have hm : key x ≤ key m := le_of_not_lt hlt
        rw [hsplit] at hc
        rcases List.mem_append.mp hc with hc | hc
        · exact le_of_lt (lt_of_le_of_lt hm (hl₁ c hc))
        · rcases List.mem_cons.mp hc with rfl | hc
          · exact hm
          · exact le_trans hm (hl₂ c hc)

theorem head?_mem {l : List α} {b : α} (h : l.head? = some b) : b ∈ l := by
  cases l with
  | nil => exact Option.noConfusion h
  | cons x xs =>
    simp only [List.head?_cons, Option.some.injEq] at h
    rw [← h]
    exact List.mem_cons_self x xs

theorem peakPattern_of_head (entries : List Entry) (b : DayBucket)
    (hh : (sortStable peakLt (bucketsWithData entries)).head? = some b) :
    peakPattern entries = match b.averageMood with
      | none => none
      | some q => if q = 0 then none else some (mkPeakPattern b q) := by
  unfold peakPattern
  rw [hh]

theorem peakPattern_of_head_none (entries : List Entry)
    (hh : (sortStable peakLt (bucketsWithData entries)).head? = none) :
    peakPattern entries = none := by
  unfold peakPattern
  rw [hh]

theorem dipPattern_of_head (entries : List Entry) (b : DayBucket)
    (hh : (sortStable dipLt (bucketsWithData entries)).head? = some b) :
    dipPattern entries = match b.averageMood with
      | none => none
      | some q => if q = 0 then none else some (mkDipPattern b q) := by
  unfold dipPattern
  rw [hh]

theorem dipPattern_of_head_none (entries : List Entry)
    (hh : (sortStable dipLt (bucketsWithData entries)).head? = none) :
    dipPattern entries = none := by
  unfold dipPattern
  rw [hh]

/-- Buckets with data have an average of at least 1 under valid ratings. -/
theorem bucketsWithData_avg (entries : List Entry)
    (hval : ∀ e ∈ entries, 1 ≤ e.rating) (b : DayBucket)
    (hb : b ∈ bucketsWithData entries) :
    ∃ q : ℚ, b.averageMood = some q ∧ 1 ≤ q := by
  rcases List.mem_filter.mp hb with ⟨hmem, hsome⟩
  rcases Option.isSome_iff_exists.mp hsome with ⟨q, hq⟩
  exact ⟨q, hq, bucket_avg_ge_one entries hval b hmem q hq⟩

/-- C5: the Peak Day rule emits exactly when some bucket has data, and the
selected bucket splits the Sunday-first bucket list into a strictly-smaller
prefix and a no-larger suffix — i.e. it is the first bucket attaining the
maximum mean (strict maximum, ties resolved to the earliest weekday,
Sunday-first); symmetrically for the Dip Day rule with the minimum.  Ratings
are assumed at least 1 (the data-model invariant), which rules out the
truthiness corner case of a 0 average. -/
theorem peakDipRule_spec (entries : List Entry)
    (hval : ∀ e ∈ entries, 1 ≤ e.rating) :
    ((peakPattern entries).isSome ↔ bucketsWithData entries ≠ []) ∧
    (∀ p, peakPattern entries = some p →
      ∃ b q l₁ l₂, bucketsWithData entries = l₁ ++ b :: l₂ ∧
        b.averageMood = some q ∧ p = mkPeakPattern b q ∧
        (∀ c ∈ l₁, c.averageMood.getD 0 < q) ∧
        (∀ c ∈ l₂, c.averageMood.getD 0 ≤ q)) ∧
    ((dipPattern entries).isSome ↔ bucketsWithData entries ≠ []) ∧
    (∀ p, dipPattern entries = some p →
      ∃ b q l₁ l₂, bucketsWithData entries = l₁ ++ b :: l₂ ∧
        b.averageMood = some q ∧ p = mkDipPattern b q ∧
        (∀ c ∈ l₁, q < c.averageMood.getD 0) ∧
        (∀ c ∈ l₂, q ≤ c.averageMood.getD 0)) := by
  refine ⟨?_, ?_, ?_, ?_⟩
  · constructor
    · intro hsome hnil
      have hh : (sortStable peakLt (bucketsWithData entries)).head? = none := by
        rw [hnil]; rfl
      rw [peakPattern_of_head_none entries hh] at hsome
      simp at hsome
    · intro hne
      have hlen : 0 < (sortStable peakLt (bucketsWithData entries)).length := by
        rw [(sortStable_perm peakLt (bucketsWithData entries)).length_eq]
        exact List.length_pos.mpr hne
      cases hh : (sortStable peakLt (bucketsWithData entries)).head? with
      | none =>
        rw [List.head?_eq_none_iff] at hh
        rw [hh] at hlen
        simp at hlen
      | some b =>
        have hbmem : b ∈ bucketsWithData entries := (mem_sortStable _ _ _).mp (head?_mem hh)
        rcases bucketsWithData_avg entries hval b hbmem with ⟨q, hq, hq1⟩
        have hq0 : ¬ q = 0 := by intro h0; rw [h0] at hq1; norm_num at hq1
        rw [peakPattern_of_head entries b hh, hq]
        simp [hq0]
  · intro p hp
    cases hh : (sortStable peakLt (bucketsWithData entries)).head? with
    | none =>
      rw [peakPattern_of_head_none entries hh] at hp
      exact Option.noConfusion hp
    | some b =>
      rw [peakPattern_of_head entries b hh] at hp
      cases hq : b.averageMood with
      | none => rw [hq] at hp; exact Option.noConfusion hp
      | some q =>
        rw [hq] at hp
        have hp2 : (if q = 0 then none else some (mkPeakPattern b q)) = some p := hp
        by_cases h0 : q = 0
        · rw [if_pos h0] at hp2; exact Option.noConfusion hp2
        · rw [if_neg h0] at hp2
          have hp' : p = mkPeakPattern b q := (Option.some.inj hp2).symm
          have hfb : firstBest (fun a c : DayBucket =>
              decide (c.averageMood.getD 0 < a.averageMood.getD 0))
              (bucketsWithData entries) = some b := by
            rw [← head?_sortStable]
            exact hh
          rcases firstBest_split (fun c : DayBucket => c.averageMood.getD 0)
              (bucketsWithData entries) b hfb with ⟨l₁, l₂, hdec, hl₁, hl₂⟩
          refine ⟨b, q, l₁, l₂, hdec, hq, hp', ?_, ?_⟩
          · intro c hc
            have := hl₁ c hc
            simpa [hq] using this
          · intro c hc
            have := hl₂ c hc
            simpa [hq] using this
  · constructor
    · intro hsome hnil
      have hh : (sortStable dipLt (bucketsWithData entries)).head? = none := by
        rw [hnil]; rfl
      rw [dipPattern_of_head_none entries hh] at hsome
      simp at hsome
    · intro hne
      have hlen : 0 < (sortStable dipLt (bucketsWithData entries)).length := by
        rw [(sortStable_perm dipLt (bucketsWithData entries)).length_eq]
        exact List.length_pos.mpr hne
      cases hh : (sortStable dipLt (bucketsWithData entries)).head? with
      | none =>
        rw [List.head?_eq_none_iff] at hh
        rw [hh] at hlen
        simp at hlen
      | some b =>
        have hbmem : b ∈ bucketsWithData entries := (mem_sortStable _ _ _).mp (head?_mem hh)
        rcases bucketsWithData_avg entries hval b hbmem with ⟨q, hq, hq1⟩
        have hq0 : ¬ q = 0 := by intro h0; rw [h0] at hq1; norm_num at hq1
        rw [dipPattern_of_head entries b hh, hq]
        simp [hq0]
  · intro p hp
    cases hh : (sortStable dipLt (bucketsWithData entries)).head? with
    | none =>
      rw [dipPattern_of_head_none entries hh] at hp
      exact Option.noConfusion hp
    | some b =>
      rw [dipPattern_of_head entries b hh] at hp
      cases hq : b.averageMood with
      | none => rw [hq] at hp; exact Option.noConfusion hp
      | some q =>
        rw [hq] at hp
        have hp2 : (if q = 0 then none else some (mkDipPattern b q)) = some p := hp
        by_cases h0 : q = 0
        · rw [if_pos h0] at hp2; exact Option.noConfusion hp2
        · rw [if_neg h0] at hp2
          have hp' : p = mkDipPattern b q := (Option.some.inj hp2).symm
          have hfb : firstBest (fun a c : DayBucket =>
              decide (a.averageMood.getD 0 < c.averageMood.getD 0))
              (bucketsWithData entries) = some b := by
            rw [← head?_sortStable]
            exact hh
          rcases firstBest_split_asc (fun c : DayBucket => c.averageMood.getD 0)
              (bucketsWithData entries) b hfb with ⟨l₁, l₂, hdec, hl₁, hl₂⟩
          refine ⟨b, q, l₁, l₂, hdec, hq, hp', ?_, ?_⟩
          · intro c hc
            have := hl₁ c hc
            simpa [hq] using this
          · intro c hc
            have := hl₂ c hc
            simpa [hq] using this

/-- C5, witness: a single Sunday entry with rating 5 satisfies the rating
bound, and the emission criterion holds. -/
theorem peakDipRule_spec_witness :
    (∀ e ∈ ([⟨3, 5, none⟩] : List Entry), 1 ≤ e.rating) ∧
    ((peakPattern [⟨3, 5, none⟩]).isSome ↔ bucketsWithData [⟨3, 5, none⟩] ≠ []) :=
  ⟨by decide, (peakDipRule_spec [⟨3, 5, none⟩] (by decide)).1⟩

theorem floor_add_half (z : Int) : Int.floor ((z : ℚ) + 1 / 2) = z := by
  rw [Int.floor_eq_iff]
  constructor
  · linarith
  · push_cast
    linarith

/-- `toFixed(1)` of a natural number renders as `"<n>.0"`. -/
theorem toFixed1_natCast (n : Nat) :
    toFixed1 ((n : Nat) : ℚ) = toString n ++ "." ++ "0" := by
  show toString ((Int.floor (((n : Nat) : ℚ) * 10 + 1 / 2)).toNat / 10) ++ "." ++
      toString ((Int.floor (((n : Nat) : ℚ) * 10 + 1 / 2)).toNat % 10) =
    toString n ++ "." ++ "0"
  have h1 : ((n : Nat) : ℚ) * 10 + 1 / 2 = ((10 * (n : Int) : Int) : ℚ) + 1 / 2 := by
    push_cast
    ring
  rw [h1, floor_add_half]
  have h3 : (10 * (n : Int)).toNat = 10 * n := by omega
  rw [h3]
  have h4 : 10 * n / 10 = n := by omega
  have h5 : 10 * n % 10 = 0 := by omega
  rw [h4, h5]
  rfl

theorem weekdayAvgOf_eq_mean (entries : List Entry) :
    weekdayAvgOf entries = meanRating (weekdayEntriesOf entries) := by
  rw [weekdayAvgOf, meanRating]
  by_cases h : 0 < (weekdayEntriesOf entries).length
  · rw [if_pos h]
  · rw [if_neg h]
    have hz : (weekdayEntriesOf entries).length = 0 := by omega
    rw [hz]
    norm_num

theorem weekendAvgOf_eq_mean (entries : List Entry) :
    weekendAvgOf entries = meanRating (weekendEntriesOf entries) := by
  rw [weekendAvgOf, meanRating]
  by_cases h : 0 < (weekendEntriesOf entries).length
  · rw [if_pos h]
  · rw [if_neg h]
    have hz : (weekendEntriesOf entries).length = 0 := by omega
    rw [hz]
    norm_num

theorem peakPattern_tag (entries : List Entry) (p : MoodPattern)
    (h : peakPattern entries = some p) : p.pattern = "Peak Day" := by
  cases hh : (sortStable peakLt (bucketsWithData entries)).head? with
  | none => rw [peakPattern_of_head_none entries hh] at h; exact Option.noConfusion h
  | some b =>
    rw [peakPattern_of_head entries b hh] at h
    cases hq : b.averageMood with
    | none => rw [hq] at h; exact Option.noConfusion h
    | some q =>
      rw [hq] at h
      have h2 : (if q = 0 then none else some (mkPeakPattern b q)) = some p := h
      by_cases h0 : q = 0
      · rw [if_pos h0] at h2; exact Option.noConfusion h2
      · rw [if_neg h0] at h2
        rw [← Option.some.inj h2]
        rfl

theorem dipPattern_tag (entries : List Entry) (p : MoodPattern)
    (h : dipPattern entries = some p) : p.pattern = "Dip Day" := by
  cases hh : (sortStable dipLt (bucketsWithData entries)).head? with
  | none => rw [dipPattern_of_head_none entries hh] at h; exact Option.noConfusion h
  | some b =>
    rw [dipPattern_of_head entries b hh] at h
    cases hq : b.averageMood with
    | none => rw [hq] at h; exact Option.noConfusion h
    | some q =>
      rw [hq] at h
      have h2 : (if q = 0 then none else some (mkDipPattern b q)) = some p := h
      by_cases h0 : q = 0
      · rw [if_pos h0] at h2; exact Option.noConfusion h2
      · rw [if_neg h0] at h2
        rw [← Option.some.inj h2]
        rfl

/-- The spec's weekend example: ratings 5 on Saturday/Sunday (epoch days 2,
3, 9) and 1 on Monday-Wednesday (days 4, 5, 6). -/
def exWeekend : List Entry :=
  [⟨2, 5, none⟩, ⟨3, 5, none⟩, ⟨9, 5, none⟩, ⟨4, 1, none⟩, ⟨5, 1, none⟩, ⟨6, 1, none⟩]

theorem exWeekend_groups :
    weekdayEntriesOf exWeekend = [⟨4, 1, none⟩, ⟨5, 1, none⟩, ⟨6, 1, none⟩] ∧
    weekendEntriesOf exWeekend = [⟨2, 5, none⟩, ⟨3, 5, none⟩, ⟨9, 5, none⟩] := by
  constructor <;> rfl

theorem exWeekend_avgs :
    weekdayAvgOf exWeekend = 1 ∧ weekendAvgOf exWeekend = 5 := by
  constructor
  · rw [weekdayAvgOf, exWeekend_groups.1]
    simp only [List.length_cons, List.length_nil, sumRatings, List.foldl_cons, List.foldl_nil]
    norm_num
  · rw [weekendAvgOf, exWeekend_groups.2]
    simp only [List.length_cons, List.length_nil, sumRatings, List.foldl_cons, List.foldl_nil]
    norm_num

theorem toFixed1_four : toFixed1 ((4 : ℚ)) = "4.0" := by
  have h1 : ((4 : ℚ)) = ((4 : Nat) : ℚ) := by norm_num
  rw [h1, toFixed1_natCast]
  decide

theorem exWeekend_pattern :
    weekendPattern exWeekend = some ⟨"Weekend", "Weekend Boost",
      "Your mood tends to improve on weekends by " ++ "4.0" ++ " points on average."⟩ := by
  rw [weekendPattern, exWeekend_avgs.1, exWeekend_avgs.2]
  rw [if_pos ?hcond]
  case hcond =>
    refine ⟨by norm_num, ?_, ?_⟩
    · rw [exWeekend_groups.1]; simp
    · rw [exWeekend_groups.2]; simp
  rw [if_pos (by norm_num : (1 : ℚ) < 5)]
  have h54 : (5 : ℚ) - 1 = 4 := by norm_num
  rw [h54, toFixed1_four]

/-- C4: the weekend-vs-weekday rule fires exactly when both groups are
non-empty and the absolute difference of their means exceeds 0.5; a higher
weekend mean yields the Weekend Boost tag, a higher weekday mean the Weekday
Preference tag, and the description embeds the absolute difference rendered
to one decimal place; on the spec's example (weekend ratings `[5,5,5]`,
weekday ratings `[1,1,1]`) exactly one emitted pattern is tagged
`Weekend Boost` and its description contains `"4.0"`. -/
theorem weekendRule_spec :
    (∀ entries : List Entry,
      ((weekendPattern entries).isSome ↔
        (weekdayEntriesOf entries ≠ [] ∧ weekendEntriesOf entries ≠ [] ∧
          1 / 2 < |meanRating (weekendEntriesOf entries) - meanRating (weekdayEntriesOf entries)|)) ∧
      (∀ p, weekendPattern entries = some p →
        (meanRating (weekdayEntriesOf entries) < meanRating (weekendEntriesOf entries) →
          p.pattern = "Weekend Boost" ∧ p.day = "Weekend" ∧
          containsSub p.description.data
            (toFixed1 |meanRating (weekendEntriesOf entries) - meanRating (weekdayEntriesOf entries)|).data = true) ∧
        (meanRating (weekendEntriesOf entries) < meanRating (weekdayEntriesOf entries) →
          p.pattern = "Weekday Preference" ∧ p.day = "Weekday" ∧
          containsSub p.description.data
            (toFixed1 |meanRating (weekendEntriesOf entries) - meanRating (weekdayEntriesOf entries)|).data = true))) ∧
    ((detectPatterns exWeekend).filter (fun p => p.pattern == "Weekend Boost")).length = 1 ∧
    (∀ p ∈ (detectPatterns exWeekend).filter (fun p => p.pattern == "Weekend Boost"),
      containsSub p.description.data ("4.0".data) = true) := by
  have hmain : ∀ entries : List Entry,
      ((weekendPattern entries).isSome ↔
        (weekdayEntriesOf entries ≠ [] ∧ weekendEntriesOf entries ≠ [] ∧
          1 / 2 < |meanRating (weekendEntriesOf entries) - meanRating (weekdayEntriesOf entries)|)) ∧
      (∀ p, weekendPattern entries = some p →
        (meanRating (weekdayEntriesOf entries) < meanRating (weekendEntriesOf entries) →
          p.pattern = "Weekend Boost" ∧ p.day = "Weekend" ∧
          containsSub p.description.data
            (toFixed1 |meanRating (weekendEntriesOf entries) - meanRating (weekdayEntriesOf entries)|).data = true) ∧
        (meanRating (weekendEntriesOf entries) < meanRating (weekdayEntriesOf entries) →
          p.pattern = "Weekday Preference" ∧ p.day = "Weekday" ∧
          containsSub p.description.data
            (toFixed1 |meanRating (weekendEntriesOf entries) - meanRating (weekdayEntriesOf entries)|).data = true)) := by
    intro entries
    have hwd := weekdayAvgOf_eq_mean entries
    have hwe := weekendAvgOf_eq_mean entries
    constructor
    · rw [weekendPattern]
      by_cases hc : (1 / 2 < |weekdayAvgOf entries - weekendAvgOf entries| ∧
          0 < (weekdayEntriesOf entries).length ∧ 0 < (weekendEntriesOf entries).length)
      · rw [if_pos hc]
        constructor
        · intro _
          refine ⟨List.length_pos.mp hc.2.1, List.length_pos.mp hc.2.2, ?_⟩
          rw [← hwd, ← hwe, abs_sub_comm]
          exact hc.1
        · intro _
          by_cases hlt : weekdayAvgOf entries < weekendAvgOf entries
          · rw [if_pos hlt]; rfl
          · rw [if_neg hlt]; rfl
      · rw [if_neg hc]
        constructor
        · intro hsome; simp at hsome
        · intro ⟨h1, h2, h3⟩
          exfalso
          apply hc
          refine ⟨?_, List.length_pos.mpr h1, List.length_pos.mpr h2⟩
          rw [hwd, hwe, abs_sub_comm]
          exact h3
    · intro p hp
      rw [weekendPattern] at hp
      by_cases hc : (1 / 2 < |weekdayAvgOf entries - weekendAvgOf entries| ∧
          0 < (weekdayEntriesOf entries).length ∧ 0 < (weekendEntriesOf entries).length)
      · rw [if_pos hc] at hp
        by_cases hlt : weekdayAvgOf entries < weekendAvgOf entries
        · rw [if_pos hlt] at hp
          have hp' := (Option.some.inj hp).symm
          constructor
          · intro _
            subst hp'
            refine ⟨rfl, rfl, ?_⟩
            have habs : |meanRating (weekendEntriesOf entries) - meanRating (weekdayEntriesOf entries)| =
                weekendAvgOf entries - weekdayAvgOf entries := by
              rw [← hwd, ← hwe]
              exact abs_of_pos (by linarith)
            rw [habs]
            have hdata : ("Your mood tends to improve on weekends by "
                ++ toFixed1 (weekendAvgOf entries - weekdayAvgOf entries)
                ++ " points on average.").data =
                (("Your mood tends to improve on weekends by ").data
                  ++ (toFixed1 (weekendAvgOf entries - weekdayAvgOf entries)).data)
                  ++ (" points on average.").data := rfl
            show containsSub _ _ = true
            rw [hdata]
            exact containsSub_append_mid _ _ _
          · intro hgt
            exfalso
            rw [← hwd, ← hwe] at hgt
            linarith
        · rw [if_neg hlt] at hp
          have hp' := (Option.some.inj hp).symm
          have hle : weekendAvgOf entries ≤ weekdayAvgOf entries := le_of_not_lt hlt
          constructor
          · intro hgt
            exfalso
            rw [← hwd, ← hwe] at hgt
            linarith
          · intro hgt
            subst hp'
            refine ⟨rfl, rfl, ?_⟩
            have habs : |meanRating (weekendEntriesOf entries) - meanRating (weekdayEntriesOf entries)| =
                weekdayAvgOf entries - weekendAvgOf entries := by
              rw [← hwd, ← hwe] at hgt ⊢
              rw [abs_sub_comm]
              exact abs_of_pos (by linarith)
            rw [habs]
            have hdata : ("You tend to have better moods during weekdays compared to weekends by "
                ++ toFixed1 (weekdayAvgOf entries - weekendAvgOf entries)
                ++ " points.").data =
                (("You tend to have better moods during weekdays compared to weekends by ").data
                  ++ (toFixed1 (weekdayAvgOf entries - weekendAvgOf entries)).data)
                  ++ (" points.").data := rfl
            show containsSub _ _ = true
            rw [hdata]
            exact containsSub_append_mid _ _ _
      · rw [if_neg hc] at hp
        exact Option.noConfusion hp
  refine ⟨hmain, ?_, ?_⟩
  · rw [detectPatterns, List.filter_append, List.filter_append]
    have hfpk : ((peakPattern exWeekend).toList.filter (fun p => p.pattern == "Weekend Boost")) = [] := by
      cases hpk : peakPattern exWeekend with
      | none => rfl
      | some p =>
        have := peakPattern_tag exWeekend p hpk
        simp [List.filter, this]
    have hfdp : ((dipPattern exWeekend).toList.filter (fun p => p.pattern == "Weekend Boost")) = [] := by
      cases hdp : dipPattern exWeekend with
      | none => rfl
      | some p =>
        have := dipPattern_tag exWeekend p hdp
        simp [List.filter, this]
    rw [hfpk, hfdp, exWeekend_pattern]
    rfl
  · intro p hp
    rw [detectPatterns, List.filter_append, List.filter_append] at hp
    have hfpk : ((peakPattern exWeekend).toList.filter (fun p => p.pattern == "Weekend Boost")) = [] := by
      cases hpk : peakPattern exWeekend with
      | none => rfl
      | some p₁ =>
        have := peakPattern_tag exWeekend p₁ hpk
        simp [List.filter, this]
    have hfdp : ((dipPattern exWeekend).toList.filter (fun p => p.pattern == "Weekend Boost")) = [] := by
      cases hdp : dipPattern exWeekend with
      | none => rfl
      | some p₁ =>
        have := dipPattern_tag exWeekend p₁ hdp
        simp [List.filter, this]
    rw [hfpk, hfdp, exWeekend_pattern] at hp
    have hp' : p ∈ [(⟨"Weekend", "Weekend Boost",
        "Your mood tends to improve on weekends by " ++ "4.0" ++ " points on average."⟩ : MoodPattern)] := hp
    have hpe := List.mem_singleton.mp hp'
    subst hpe
    have hdata : (("Your mood tends to improve on weekends by " ++ "4.0"
        ++ " points on average.") : String).data =
        (("Your mood tends to improve on weekends by ").data ++ ("4.0").data)
          ++ (" points on average.").data := rfl
    show containsSub _ _ = true
    rw [hdata]
    exact containsSub_append_mid _ _ _

/-- C4, witness: the emission criterion discharged on the example input. -/
theorem weekendRule_spec_witness :
    (weekdayEntriesOf exWeekend ≠ [] ∧ weekendEntriesOf exWeekend ≠ [] ∧
      1 / 2 < |meanRating (weekendEntriesOf exWeekend) - meanRating (weekdayEntriesOf exWeekend)|) ∧
    (weekendPattern exWeekend).isSome := by
  have h1 : weekdayEntriesOf exWeekend ≠ [] := by rw [exWeekend_groups.1]; simp
  have h2 : weekendEntriesOf exWeekend ≠ [] := by rw [exWeekend_groups.2]; simp
  have h3 : 1 / 2 < |meanRating (weekendEntriesOf exWeekend) - meanRating (weekdayEntriesOf exWeekend)| := by
    rw [← weekdayAvgOf_eq_mean, ← weekendAvgOf_eq_mean, exWeekend_avgs.1, exWeekend_avgs.2]
    norm_num
  exact ⟨⟨h1, h2, h3⟩, ((weekendRule_spec.1 exWeekend).1).mpr ⟨h1, h2, h3⟩⟩

/-! ### Trigger extraction (`analyzeMoodPatterns`, lines 164-213)

The source scans the entries in order; for each entry with a (truthy) note
it lower-cases the note and walks the positive vocabulary, then the negative
vocabulary, in order.  Every vocabulary word contained in the note as a
substring gets its counter incremented (once per entry) and the entry's
rating added to its `totalImpact`; a word first seen is appended to the
`triggers` object, whose `Object.entries` iteration order is insertion
order.  The result is filtered to counts of at least 2, mapped to a display
record that drops `totalImpact`, stably sorted by descending frequency and
truncated to 5. -/

/-- The fixed polarity of a vocabulary word. -/
inductive Polarity
  | positive
  | negative
deriving DecidableEq, Repr

/-- The per-word record of the `triggers` object. -/
structure TrigData where
  count : Nat
  totalImpact : ℚ
  type : Polarity
deriving DecidableEq, Repr

/-- The `triggers` object: an insertion-ordered association list. -/
abbrev TrigMap := List (List Char × TrigData)

/-- `triggerWords.positive`. -/
def positiveWords : List (List Char) :=
  ["exercise", "workout", "friend", "family", "nature", "outdoors", "sleep",
    "rest", "meditation", "hobby"].map String.toList

/-- `triggerWords.negative`. -/
def negativeWords : List (List Char) :=
  ["work", "stress", "tired", "sick", "argument", "conflict", "deadline",
    "anxiety", "worry"].map String.toList

/-- The whole vocabulary in scan order: positive words first, then negative. -/
def vocabList : List (List Char × Polarity) :=
  positiveWords.map (fun w => (w, Polarity.positive))
    ++ negativeWords.map (fun w => (w, Polarity.negative))

/-- The note text an entry contributes: `none` when `!entry.details` (absent
or empty note), otherwise the lower-cased note. -/
def entryText (e : Entry) : Option (List Char) :=
  match e.details with
  | none => none
  | some d => if d.isEmpty then none else some (d.map Char.toLower)

/-- `triggers[word]` update: increment in place when the key is present,
append a fresh record otherwise. -/
def bump : TrigMap → List Char → Polarity → ℚ → TrigMap
  | [], w, pol, r => [(w, ⟨1, r, pol⟩)]
  | (k, d) :: m, w, pol, r =>
    if k = w then (k, ⟨d.count + 1, d.totalImpact + r, d.type⟩) :: m
    else (k, d) :: bump m w pol r

/-- One vocabulary word checked against one note. -/
def scanStep (r : ℚ) (s : List Char) (m : TrigMap) (p : List Char × Polarity) : TrigMap :=
  if containsSub s p.1 then bump m p.1 p.2 r else m

/-- One entry processed: skip on a falsy note, otherwise scan the positive
then the negative vocabulary. -/
def processEntry (m : TrigMap) (e : Entry) : TrigMap :=
  match entryText e with
  | none => m
  | some s =>
    (negativeWords.map (fun w => (w, Polarity.negative))).foldl (scanStep e.rating s)
      ((positiveWords.map (fun w => (w, Polarity.positive))).foldl (scanStep e.rating s) m)

/-- The `triggers` object after the whole scan. -/
def buildTriggers (entries : List Entry) : TrigMap := entries.foldl processEntry []

/-- One output record (`MoodTrigger` of the source): display form, fixed
polarity, occurrence count — `totalImpact` is dropped here. -/
structure MoodTrigger where
  trigger : List Char
  impact : Polarity
  frequency : Nat
deriving DecidableEq, Repr

/-- `trigger.charAt(0).toUpperCase() + trigger.slice(1)`. -/
def capitalizeWord : List Char → List Char
  | [] => []
  | c :: cs => c.toUpper :: cs

/-- The map step of `triggersArray`. -/
def displayTrigger (p : List Char × TrigData) : MoodTrigger :=
  ⟨capitalizeWord p.1, p.2.type, p.2.count⟩

/-- The comparator `(a, b) => b.frequency - a.frequency`. -/
abbrev freqLt (a b : MoodTrigger) : Bool := decide (b.frequency < a.frequency)

/-- `extractTriggers`: filter to counts of at least two, map to the display
record, stable sort by descending frequency, truncate to five. -/
def extractTriggers (entries : List Entry) : List MoodTrigger :=
  (sortStable freqLt
    (((buildTriggers entries).filter (fun p => decide (2 ≤ p.2.count))).map displayTrigger)).take 5

/-- Does an entry's note contain the word? -/
def matchesWord (e : Entry) (w : List Char) : Bool :=
  match entryText e with
  | none => false
  | some s => containsSub s w

/-- Number of entries whose note contains the word (each entry counts once). -/
def countHits (entries : List Entry) (w : List Char) : Nat :=
  (entries.filter (fun e => matchesWord e w)).length

/-- Sum of the ratings of the entries whose note contains the word. -/
def sumHits (entries : List Entry) (w : List Char) : ℚ :=
  sumRatings (entries.filter (fun e => matchesWord e w))

/-- Index of the first entry whose note contains the word (length if none). -/
def firstHit (entries : List Entry) (w : List Char) : Nat :=
  entries.findIdx (fun e => matchesWord e w)

/-- Position of a word in the scan vocabulary. -/
def vocabRank (w : List Char) : Nat := vocabList.findIdx (fun p => decide (p.1 = w))

/-- First-match order: by index of the first entry mentioning the word, ties
by vocabulary position (positive words before negative, each in list
order) — the insertion order of the `triggers` object. -/
def fmLt (entries : List Entry) (w v : List Char) : Prop :=
  firstHit entries w < firstHit entries v ∨
    (firstHit entries w = firstHit entries v ∧ vocabRank w < vocabRank v)

/-- The invariant tying the `triggers` object to the per-word statistics. -/
def TrigInv (entries : List Entry) (m : TrigMap) : Prop :=
  (∀ w d, (w, d) ∈ m →
    (w, d.type) ∈ vocabList ∧ d.count = countHits entries w ∧
    d.totalImpact = sumHits entries w ∧ 1 ≤ d.count) ∧
  (∀ w pol, (w, pol) ∈ vocabList → 1 ≤ countHits entries w → ∃ d, (w, d) ∈ m) ∧
  (m.map Prod.fst).Nodup ∧
  m.Pairwise (fun p q => fmLt entries p.1 q.1)

/-- `word in triggers` (key lookup). -/
def hasKey (m : TrigMap) (w : List Char) : Bool := m.any (fun p => decide (p.1 = w))

theorem hasKey_true_iff (m : TrigMap) (w : List Char) :
    hasKey m w = true ↔ w ∈ m.map Prod.fst := by
  rw [hasKey, List.any_eq_true]
  constructor
  · rintro ⟨p, hp, hdec⟩
    exact List.mem_map.mpr ⟨p, hp, of_decide_eq_true hdec⟩
  · intro h
    rcases List.mem_map.mp h with ⟨p, hp, hpe⟩
    exact ⟨p, hp, decide_eq_true hpe⟩

theorem hasKey_false_iff (m : TrigMap) (w : List Char) :
    hasKey m w = false ↔ w ∉ m.map Prod.fst := by
  rw [← hasKey_true_iff]
  cases h : hasKey m w <;> simp [h]

theorem bump_absent (m : TrigMap) (w : List Char) (pol : Polarity) (r : ℚ)
    (h : hasKey m w = false) : bump m w pol r = m ++ [(w, ⟨1, r, pol⟩)] := by
  induction m with
  | nil => rfl
  | cons p m ih =>
    obtain ⟨k, d⟩ := p
    have hk : ¬ k = w := by
      intro hkw
      have : hasKey ((k, d) :: m) w = true := by
        rw [hasKey_true_iff, List.map_cons]
        exact List.mem_cons.mpr (Or.inl hkw.symm)
      rw [h] at this
      exact Bool.noConfusion this
    have hm : hasKey m w = false := by
      rw [hasKey_false_iff]
      intro hmem
      have : hasKey ((k, d) :: m) w = true := by
        rw [hasKey_true_iff, List.map_cons]
        exact List.mem_cons.mpr (Or.inr hmem)
      rw [h] at this
      exact Bool.noConfusion this
    rw [bump, if_neg hk, ih hm]
    rfl

/-- The in-place update a hit applies to the record stored at `w`. -/
def updWith (r : ℚ) (w : List Char) (p : List Char × TrigData) : List Char × TrigData :=
  if p.1 = w then (p.1, ⟨p.2.count + 1, p.2.totalImpact + r, p.2.type⟩) else p

theorem map_updWith_id (m : TrigMap) (r : ℚ) (w : List Char)
    (h : ∀ p ∈ m, ¬ p.1 = w) : m.map (updWith r w) = m := by
  have hcong : ∀ p ∈ m, updWith r w p = p := by
    intro p hp
    rw [updWith, if_neg (h p hp)]
  rw [List.map_congr_left hcong]
  exact List.map_id m

theorem bump_present (m : TrigMap) (w : List Char) (pol : Polarity) (r : ℚ)
    (hnd : (m.map Prod.fst).Nodup) (h : hasKey m w = true) :
    bump m w pol r = m.map (updWith r w) := by
  induction m with
  | nil => rw [hasKey] at h; simp at h
  | cons p m ih =>
    obtain ⟨k, d⟩ := p
    have hnd' : (m.map Prod.fst).Nodup := (List.nodup_cons.mp hnd).2
    have hknot : k ∉ m.map Prod.fst := (List.nodup_cons.mp hnd).1
    by_cases hk : k = w
    · subst hk
      rw [bump, if_pos rfl]
      have hmap : m.map (updWith r k) = m :=
        map_updWith_id m r k (by
          intro p hp hpk
          exact hknot (List.mem_map.mpr ⟨p, hp, hpk⟩))
      rw [List.map_cons, hmap, updWith, if_pos rfl]
    · have hm : hasKey m w = true := by
        rw [hasKey_true_iff]
        rcases (hasKey_true_iff _ w).mp h with hmem
        rcases List.mem_map.mp hmem with ⟨q, hq, hqe⟩
        rcases List.mem_cons.mp hq with rfl | hq'
        · exact absurd hqe hk
        · exact List.mem_map.mpr ⟨q, hq', hqe⟩
      rw [bump, if_neg hk, ih hnd' hm, List.map_cons, updWith, if_neg hk]

theorem findIdx_append_my (p : α → Bool) (l₁ l₂ : List α) :
    (l₁ ++ l₂).findIdx p =
      if l₁.findIdx p < l₁.length then l₁.findIdx p else l₁.length + l₂.findIdx p := by
  induction l₁ with
  | nil => simp
  | cons a l₁ ih =>
    cases hpa : p a with
    | true => simp [List.findIdx_cons, hpa]
    | false =>
      simp only [List.cons_append, List.findIdx_cons, hpa, cond_false, List.length_cons, ih]
      by_cases h : l₁.findIdx p < l₁.length
      · rw [if_pos h, if_pos (by omega)]
      · rw [if_neg h, if_neg (by omega)]
        omega

theorem findIdx_lt_length_iff_any (p : α → Bool) (l : List α) :
    l.findIdx p < l.length ↔ l.any p = true := by
  induction l with
  | nil => simp
  | cons a l ih =>
    cases hpa : p a with
    | true => simp [List.findIdx_cons, hpa]
    | false =>
      simp only [List.findIdx_cons, hpa, cond_false, List.length_cons, List.any_cons,
        Bool.false_or]
      rw [← ih]
      omega

theorem countHits_pos_iff (entries : List Entry) (w : List Char) :
    1 ≤ countHits entries w ↔ entries.any (fun e => matchesWord e w) = true := by
  rw [countHits]
  constructor
  · intro h
    have : entries.filter (fun e => matchesWord e w) ≠ [] := by
      intro hnil
      rw [hnil] at h
      simp at h
    rcases List.exists_mem_of_ne_nil _ this with ⟨e, he⟩
    rcases List.mem_filter.mp he with ⟨hmem, hmatch⟩
    exact List.any_eq_true.mpr ⟨e, hmem, hmatch⟩
  · intro h
    rcases List.any_eq_true.mp h with ⟨e, hmem, hmatch⟩
    have : e ∈ entries.filter (fun e => matchesWord e w) := List.mem_filter.mpr ⟨hmem, hmatch⟩
    have := List.length_pos.mpr (List.ne_nil_of_mem this)
    omega

theorem firstHit_lt_iff (entries : List Entry) (w : List Char) :
    firstHit entries w < entries.length ↔ 1 ≤ countHits entries w := by
  rw [firstHit, findIdx_lt_length_iff_any, countHits_pos_iff]

theorem sumRatings_append (a b : List Entry) :
    sumRatings (a ++ b) = sumRatings a + sumRatings b := by
  rw [sumRatings_eq_sum, sumRatings_eq_sum, sumRatings_eq_sum, List.map_append,
    List.sum_append]

theorem countHits_append_single (P : List Entry) (e : Entry) (w : List Char) :
    countHits (P ++ [e]) w =
      countHits P w + (if matchesWord e w = true then 1 else 0) := by
  rw [countHits, countHits, List.filter_append, List.length_append]
  cases h : matchesWord e w <;> simp [List.filter, h]

theorem sumHits_append_single (P : List Entry) (e : Entry) (w : List Char) :
    sumHits (P ++ [e]) w =
      sumHits P w + (if matchesWord e w = true then e.rating else 0) := by
  rw [sumHits, sumHits, List.filter_append, sumRatings_append]
  cases h : matchesWord e w <;> simp [List.filter, h, sumRatings]

theorem firstHit_append_found (P : List Entry) (e : Entry) (w : List Char)
    (h : 1 ≤ countHits P w) : firstHit (P ++ [e]) w = firstHit P w := by
  rw [firstHit, findIdx_append_my, ← firstHit, if_pos ((firstHit_lt_iff P w).mpr h)]

theorem firstHit_append_new (P : List Entry) (e : Entry) (w : List Char)
    (h : countHits P w = 0) (hm : matchesWord e w = true) :
    firstHit (P ++ [e]) w = P.length := by
  rw [firstHit, findIdx_append_my, if_neg (by
    rw [← firstHit]
    intro hlt
    have := (firstHit_lt_iff P w).mp hlt
    omega)]
  have : List.findIdx (fun e => matchesWord e w) [e] = 0 := by
    simp [List.findIdx_cons, hm]
  rw [this]
  omega

theorem firstHit_append_none (P : List Entry) (e : Entry) (w : List Char)
    (h : countHits P w = 0) (hm : matchesWord e w = false) :
    firstHit (P ++ [e]) w = P.length + 1 := by
  rw [firstHit, findIdx_append_my, if_neg (by
    rw [← firstHit]
    intro hlt
    have := (firstHit_lt_iff P w).mp hlt
    omega)]
  have : List.findIdx (fun e => matchesWord e w) [e] = 1 := by
    simp [List.findIdx_cons, hm]
  rw [this]

theorem matchesWord_of_none (e : Entry) (h : entryText e = none) (w : List Char) :
    matchesWord e w = false := by
  rw [matchesWord, h]

theorem matchesWord_of_some (e : Entry) (s : List Char) (h : entryText e = some s)
    (w : List Char) : matchesWord e w = containsSub s w := by
  rw [matchesWord, h]

/-- Is `w` a vocabulary key from `L` that hits the note `s`? -/
def hitKey (s : List Char) (L : List (List Char × Polarity)) (w : List Char) : Bool :=
  L.any (fun q => decide (q.1 = w) && containsSub s q.1)

theorem hitKey_cons (s : List Char) (q : List Char × Polarity)
    (L : List (List Char × Polarity)) (w : List Char) :
    hitKey s (q :: L) w = ((decide (q.1 = w) && containsSub s q.1) || hitKey s L w) := rfl

theorem hitKey_false_of_not_key (s : List Char) (L : List (List Char × Polarity))
    (w : List Char) (h : w ∉ L.map Prod.fst) : hitKey s L w = false := by
  induction L with
  | nil => rfl
  | cons q L ih =>
    rw [List.map_cons] at h
    have h1 : ¬ q.1 = w := fun he => h (List.mem_cons.mpr (Or.inl he.symm))
    have h2 : w ∉ L.map Prod.fst := fun hm => h (List.mem_cons.mpr (Or.inr hm))
    rw [hitKey_cons, ih h2]
    simp [h1]

theorem hitKey_of_mem (s : List Char) (L : List (List Char × Polarity))
    (w : List Char) (pol : Polarity) (hnd : (L.map Prod.fst).Nodup)
    (hmem : (w, pol) ∈ L) : hitKey s L w = containsSub s w := by
  induction L with
  | nil => exact absurd hmem (List.not_mem_nil _)
  | cons q L ih =>
    rw [List.map_cons, List.nodup_cons] at hnd
    rcases List.mem_cons.mp hmem with rfl | hmem'
    · have : hitKey s L w = false :=
        hitKey_false_of_not_key s L w hnd.1
      rw [hitKey_cons, this]
      simp
    · have h1 : ¬ q.1 = w := by
        intro he
        exact hnd.1 (he ▸ List.mem_map.mpr ⟨(w, pol), hmem', rfl⟩)
      rw [hitKey_cons, ih hnd.2 hmem']
      simp [h1]

/-- The update one scanned entry applies to a record already in the map. -/
def updHit (r : ℚ) (s : List Char) (L : List (List Char × Polarity))
    (p : List Char × TrigData) : List Char × TrigData :=
  if hitKey s L p.1 = true then (p.1, ⟨p.2.count + 1, p.2.totalImpact + r, p.2.type⟩) else p

theorem updHit_fst (r : ℚ) (s : List Char) (L : List (List Char × Polarity))
    (p : List Char × TrigData) : (updHit r s L p).1 = p.1 := by
  rw [updHit]
  by_cases h : hitKey s L p.1 = true
  · rw [if_pos h]
  · rw [if_neg h]

theorem keys_map_updHit (m : TrigMap) (r : ℚ) (s : List Char)
    (L : List (List Char × Polarity)) :
    (m.map (updHit r s L)).map Prod.fst = m.map Prod.fst := by
  rw [List.map_map]
  exact List.map_congr_left (fun p _ => updHit_fst r s L p)

theorem hasKey_map_updHit (m : TrigMap) (r : ℚ) (s : List Char)
    (L : List (List Char × Polarity)) (x : List Char) :
    hasKey (m.map (updHit r s L)) x = hasKey m x := by
  cases h : hasKey m x with
  | true =>
    rw [hasKey_true_iff] at h ⊢
    rw [keys_map_updHit]
    exact h
  | false =>
    rw [hasKey_false_iff] at h ⊢
    rw [keys_map_updHit]
    exact h

theorem updWith_fst (r : ℚ) (w : List Char) (p : List Char × TrigData) :
    (updWith r w p).1 = p.1 := by
  rw [updWith]
  by_cases h : p.1 = w
  · rw [if_pos h]
  · rw [if_neg h]

theorem keys_map_updWith (m : TrigMap) (r : ℚ) (w : List Char) :
    (m.map (updWith r w)).map Prod.fst = m.map Prod.fst := by
  rw [List.map_map]
  exact List.map_congr_left (fun p _ => updWith_fst r w p)

theorem hasKey_map_updWith (m : TrigMap) (r : ℚ) (w : List Char) (x : List Char) :
    hasKey (m.map (updWith r w)) x = hasKey m x := by
  cases h : hasKey m x with
  | true =>
    rw [hasKey_true_iff] at h ⊢
    rw [keys_map_updWith]
    exact h
  | false =>
    rw [hasKey_false_iff] at h ⊢
    rw [keys_map_updWith]
    exact h

theorem hasKey_append_single (m : TrigMap) (p : List Char × TrigData) (x : List Char) :
    hasKey (m ++ [p]) x = (hasKey m x || decide (p.1 = x)) := by
  rw [hasKey, hasKey, List.any_append]
  congr 1
  rw [List.any_cons, List.any_nil, Bool.or_false]

theorem scanAll_eq (r : ℚ) (s : List Char) :
    ∀ (L : List (List Char × Polarity)) (m : TrigMap),
      (L.map Prod.fst).Nodup → (m.map Prod.fst).Nodup →
      L.foldl (scanStep r s) m =
        m.map (updHit r s L) ++
          (L.filter (fun q => containsSub s q.1 && !(hasKey m q.1))).map
            (fun q => (q.1, ⟨1, r, q.2⟩)) := by
  intro L
  induction L with
  | nil =>
    intro m _ _
    simp only [List.foldl_nil, List.filter_nil, List.map_nil, List.append_nil]
    have hid : ∀ p ∈ m, updHit r s [] p = p := by
      intro p _
      rw [updHit, if_neg]
      intro hks
      exact Bool.noConfusion hks
    rw [List.map_congr_left hid]
    exact (List.map_id m).symm
  | cons q L ih =>
    intro m hndL hndm
    rw [List.map_cons, List.nodup_cons] at hndL
    obtain ⟨hqnot, hndL'⟩ := hndL
    rw [List.foldl_cons]
    by_cases hq : containsSub s q.1 = true
    · by_cases hk : hasKey m q.1 = true
      · -- hit on an existing key: in-place update
        have hstep : scanStep r s m q = m.map (updWith r q.1) := by
          rw [scanStep, if_pos hq]
          exact bump_present m q.1 q.2 r hndm hk
        have hndm2 : ((m.map (updWith r q.1)).map Prod.fst).Nodup := by
          rw [keys_map_updWith]
          exact hndm
        rw [hstep, ih _ hndL' hndm2]
        congr 1
        · rw [List.map_map]
          apply List.map_congr_left
          intro p _
          show updHit r s L (updWith r q.1 p) = updHit r s (q :: L) p
          by_cases hpq : p.1 = q.1
          · have hkeyL : hitKey s L p.1 = false := by
              rw [hpq]
              exact hitKey_false_of_not_key s L q.1 hqnot
            rw [updWith, if_pos hpq]
            have h1 : updHit r s L (p.1, ⟨p.2.count + 1, p.2.totalImpact + r, p.2.type⟩) =
                (p.1, ⟨p.2.count + 1, p.2.totalImpact + r, p.2.type⟩) := by
              rw [updHit, if_neg]
              intro hcon
              have hcon' : hitKey s L p.1 = true := hcon
              rw [hkeyL] at hcon'
              exact Bool.noConfusion hcon'
            rw [h1, updHit, if_pos]
            have hd : decide (q.1 = p.1) = true := decide_eq_true hpq.symm
            show hitKey s (q :: L) p.1 = true
            rw [hitKey_cons, hd, hpq, hq, hitKey_false_of_not_key s L q.1 hqnot]
            rfl
          · have h1 : updWith r q.1 p = p := by rw [updWith, if_neg hpq]
            rw [h1]
            have hd : decide (q.1 = p.1) = false := decide_eq_false (fun he => hpq he.symm)
            rw [updHit, updHit, hitKey_cons, hd]
            simp only [Bool.false_and, Bool.false_or]
        · rw [List.filter_cons]
          have hcond : (containsSub s q.1 && !(hasKey m q.1)) = false := by
            rw [hq, hk]
            rfl
          rw [hcond]
          simp only [Bool.false_eq_true, if_false]
          apply congrArg
          apply List.filter_congr
          intro q' _
          rw [hasKey_map_updWith]
      · -- hit on a fresh key: append at the end
        have hkF : hasKey m q.1 = false := by
          cases hcs : hasKey m q.1
          · rfl
          · exact absurd hcs hk
        have hstep : scanStep r s m q = m ++ [(q.1, ⟨1, r, q.2⟩)] := by
          rw [scanStep, if_pos hq]
          exact bump_absent m q.1 q.2 r hkF
        have hnd2 : (((m ++ [(q.1, (⟨1, r, q.2⟩ : TrigData))]).map Prod.fst)).Nodup := by
          rw [List.map_append, List.nodup_append]
          refine ⟨hndm, List.nodup_singleton _, ?_⟩
          intro a ha hb
          have hb' : a = q.1 := by simpa using hb
          rw [hb'] at ha
          exact (hasKey_false_iff m q.1).mp hkF ha
        rw [hstep, ih _ hndL' hnd2]
        have h1 : (m ++ [(q.1, (⟨1, r, q.2⟩ : TrigData))]).map (updHit r s L) =
            m.map (updHit r s (q :: L)) ++ [(q.1, ⟨1, r, q.2⟩)] := by
          rw [List.map_append]
          congr 1
          · apply List.map_congr_left
            intro p hp
            have hpq : ¬ q.1 = p.1 := by
              intro he
              have : p.1 ∈ m.map Prod.fst := List.mem_map.mpr ⟨p, hp, rfl⟩
              rw [← he] at this
              exact (hasKey_false_iff m q.1).mp hkF this
            have hd : decide (q.1 = p.1) = false := decide_eq_false hpq
            rw [updHit, updHit, hitKey_cons, hd]
            simp only [Bool.false_and, Bool.false_or]
          · rw [List.map_singleton]
            congr 1
            rw [updHit, if_neg]
            intro hcon
            have hcon' : hitKey s L q.1 = true := hcon
            rw [hitKey_false_of_not_key s L q.1 hqnot] at hcon'
            exact Bool.noConfusion hcon'
        rw [h1]
        have h3 : L.filter (fun q' => containsSub s q'.1 &&
              !(hasKey (m ++ [(q.1, (⟨1, r, q.2⟩ : TrigData))]) q'.1)) =
            L.filter (fun q' => containsSub s q'.1 && !(hasKey m q'.1)) := by
          apply List.filter_congr
          intro q' hq'
          have hne : ¬ q.1 = q'.1 := by
            intro he
            exact hqnot (he ▸ List.mem_map.mpr ⟨q', hq', rfl⟩)
          rw [hasKey_append_single, decide_eq_false hne, Bool.or_false]
        rw [h3]
        have h4 : (q :: L).filter (fun q' => containsSub s q'.1 && !(hasKey m q'.1)) =
            q :: L.filter (fun q' => containsSub s q'.1 && !(hasKey m q'.1)) := by
          rw [List.filter_cons]
          have : (containsSub s q.1 && !(hasKey m q.1)) = true := by
            rw [hq, hkF]
            rfl
          rw [this]
          simp
        rw [h4, List.map_cons, List.append_assoc, List.singleton_append]
    · -- no hit: the word is skipped
      have hqF : containsSub s q.1 = false := by
        cases hcs : containsSub s q.1
        · rfl
        · exact absurd hcs hq
      have hstep : scanStep r s m q = m := by rw [scanStep, if_neg hq]
      rw [hstep, ih m hndL' hndm]
      congr 1
      · apply List.map_congr_left
        intro p _
        rw [updHit, updHit, hitKey_cons, hqF]
        simp only [Bool.and_false, Bool.false_or]
      · rw [List.filter_cons]
        have : (containsSub s q.1 && !(hasKey m q.1)) = false := by
          rw [hqF]
          rfl
        rw [this]
        simp

theorem countHits_zero_sumHits (P : List Entry) (w : List Char)
    (h : countHits P w = 0) : sumHits P w = 0 := by
  rw [countHits] at h
  rw [sumHits, List.length_eq_zero.mp h]
  rfl

theorem processEntry_none (m : TrigMap) (e : Entry) (h : entryText e = none) :
    processEntry m e = m := by
  unfold processEntry
  rw [h]

theorem processEntry_some (m : TrigMap) (e : Entry) (s : List Char)
    (h : entryText e = some s) :
    processEntry m e = vocabList.foldl (scanStep e.rating s) m := by
  unfold processEntry
  rw [h, vocabList, List.foldl_append]

theorem vocab_keys_nodup : (vocabList.map Prod.fst).Nodup := by decide

theorem vocab_rank_pairwise :
    vocabList.Pairwise (fun p q => vocabRank p.1 < vocabRank q.1) := by decide

theorem assoc_key_unique {γ : Type} (l : List (List Char × γ))
    (hnd : (l.map Prod.fst).Nodup) :
    ∀ {w : List Char} {p₁ p₂ : γ}, (w, p₁) ∈ l → (w, p₂) ∈ l → p₁ = p₂ := by
  induction l with
  | nil => intro w p₁ p₂ h; exact absurd h (List.not_mem_nil _)
  | cons a l ih =>
    intro w p₁ p₂ h₁ h₂
    rw [List.map_cons, List.nodup_cons] at hnd
    rcases List.mem_cons.mp h₁ with rfl | h₁'
    · rcases List.mem_cons.mp h₂ with he | h₂'
      · exact (congrArg Prod.snd he).symm
      · exact absurd (List.mem_map.mpr ⟨(w, p₂), h₂', rfl⟩) hnd.1
    · rcases List.mem_cons.mp h₂ with rfl | h₂'
      · exact absurd (List.mem_map.mpr ⟨(w, p₁), h₁', rfl⟩) hnd.1
      · exact ih hnd.2 h₁' h₂'

theorem trigInv_step (P : List Entry) (e : Entry) (m : TrigMap)
    (hinv : TrigInv P m) : TrigInv (P ++ [e]) (processEntry m e) := by
  obtain ⟨ha, hb, hc, hd⟩ := hinv
  cases hs : entryText e with
  | none =>
    rw [processEntry_none m e hs]
    have hmw : ∀ w, matchesWord e w = false := matchesWord_of_none e hs
    have hcount : ∀ w, countHits (P ++ [e]) w = countHits P w := by
      intro w
      rw [countHits_append_single, hmw]
      simp
    have hsum : ∀ w, sumHits (P ++ [e]) w = sumHits P w := by
      intro w
      rw [sumHits_append_single, hmw]
      simp
    refine ⟨?_, ?_, hc, ?_⟩
    · intro w d hm
      obtain ⟨h1, h2, h3, h4⟩ := ha w d hm
      exact ⟨h1, by rw [hcount]; exact h2, by rw [hsum]; exact h3, h4⟩
    · intro w pol hv hcnt
      rw [hcount] at hcnt
      exact hb w pol hv hcnt
    · refine List.Pairwise.imp_of_mem ?_ hd
      intro p q hp hq hrel
      have hcp : 1 ≤ countHits P p.1 := by
        obtain ⟨_, h2, _, h4⟩ := ha p.1 p.2 hp
        omega
      have hcq : 1 ≤ countHits P q.1 := by
        obtain ⟨_, h2, _, h4⟩ := ha q.1 q.2 hq
        omega
      show firstHit (P ++ [e]) p.1 < firstHit (P ++ [e]) q.1 ∨
        (firstHit (P ++ [e]) p.1 = firstHit (P ++ [e]) q.1 ∧ vocabRank p.1 < vocabRank q.1)
      rw [firstHit_append_found P e p.1 hcp, firstHit_append_found P e q.1 hcq]
      exact hrel
  | some s =>
    rw [processEntry_some m e s hs,
      scanAll_eq e.rating s vocabList m vocab_keys_nodup hc]
    have hmw : ∀ w, matchesWord e w = containsSub s w := matchesWord_of_some e s hs
    have hF2 : ∀ p ∈ m, hitKey s vocabList p.1 = containsSub s p.1 := by
      intro p hp
      exact hitKey_of_mem s vocabList p.1 p.2.type vocab_keys_nodup (ha p.1 p.2 hp).1
    have hfreshKey : ∀ w : List Char, hasKey m w = false →
        (∀ pol, (w, pol) ∈ vocabList → countHits P w = 0) := by
      intro w hkF pol hv
      by_contra hpos
      have h1 : 1 ≤ countHits P w := by omega
      obtain ⟨d, hdmem⟩ := hb w pol hv h1
      have : w ∈ m.map Prod.fst := List.mem_map.mpr ⟨(w, d), hdmem, rfl⟩
      exact (hasKey_false_iff m w).mp hkF this
    refine ⟨?_, ?_, ?_, ?_⟩
    · intro w d hm
      rcases List.mem_append.mp hm with hm1 | hm2
      · rcases List.mem_map.mp hm1 with ⟨p, hp, hup⟩
        have hfst : p.1 = w := by
          have := updHit_fst e.rating s vocabList p
          rw [hup] at this
          exact this.symm
        obtain ⟨h1, h2, h3, h4⟩ := ha p.1 p.2 hp
        by_cases hhit : hitKey s vocabList p.1 = true
        · have hupd : updHit e.rating s vocabList p =
              (p.1, ⟨p.2.count + 1, p.2.totalImpact + e.rating, p.2.type⟩) := by
            rw [updHit, if_pos hhit]
          rw [hupd] at hup
          have hw : p.1 = w := congrArg Prod.fst hup
          have hdq : (⟨p.2.count + 1, p.2.totalImpact + e.rating, p.2.type⟩ : TrigData) = d :=
            congrArg Prod.snd hup
          have hcs : containsSub s p.1 = true := by rw [← hF2 p hp]; exact hhit
          have hme : matchesWord e p.1 = true := by rw [hmw]; exact hcs
          subst hw
          refine ⟨?_, ?_, ?_, ?_⟩
          · rw [← hdq]
            exact h1
          · rw [← hdq, countHits_append_single, hme, if_pos rfl, ← h2]
          · rw [← hdq, sumHits_append_single, hme, if_pos rfl, ← h3]
          · rw [← hdq]
            show 1 ≤ p.2.count + 1
            omega
        · have hhitF : hitKey s vocabList p.1 = false := by
            cases hx : hitKey s vocabList p.1
            · rfl
            · exact absurd hx hhit
          have hupd : updHit e.rating s vocabList p = p := by
            rw [updHit, if_neg]
            intro hcon
            rw [hhitF] at hcon
            exact Bool.noConfusion hcon
          rw [hupd] at hup
          have hcs : containsSub s p.1 = false := by rw [← hF2 p hp]; exact hhitF
          have hme : matchesWord e p.1 = false := by rw [hmw]; exact hcs
          have hw : p.1 = w := congrArg Prod.fst hup
          have hdq : p.2 = d := congrArg Prod.snd hup
          subst hw
          refine ⟨?_, ?_, ?_, ?_⟩
          · rw [← hdq]; exact h1
          · rw [← hdq, countHits_append_single, hme]
            simp only [Bool.false_eq_true, if_false, Nat.add_zero]
            exact h2
          · rw [← hdq, sumHits_append_single, hme]
            simp only [Bool.false_eq_true, if_false, add_zero]
            exact h3
          · rw [← hdq]; exact h4
      · rcases List.mem_map.mp hm2 with ⟨q, hq, hqe⟩
        rcases List.mem_filter.mp hq with ⟨hqv, hqcond⟩
        have hcs : containsSub s q.1 = true := by
          rcases Bool.and_eq_true_iff.mp hqcond with ⟨h5, _⟩
          exact h5
        have hkF : hasKey m q.1 = false := by
          rcases Bool.and_eq_true_iff.mp hqcond with ⟨_, h6⟩
          cases hx : hasKey m q.1
          · rfl
          · rw [hx] at h6; exact Bool.noConfusion h6
        have hw : q.1 = w := congrArg Prod.fst hqe
        have hdq : (⟨1, e.rating, q.2⟩ : TrigData) = d := congrArg Prod.snd hqe
        have hme : matchesWord e q.1 = true := by rw [hmw]; exact hcs
        have hP0 : countHits P q.1 = 0 := hfreshKey q.1 hkF q.2 hqv
        subst hw
        refine ⟨?_, ?_, ?_, ?_⟩
        · rw [← hdq]
          exact hqv
        · rw [← hdq, countHits_append_single, hme, if_pos rfl, hP0]
        · rw [← hdq, sumHits_append_single, hme, if_pos rfl,
            countHits_zero_sumHits P q.1 hP0, zero_add]
        · rw [← hdq]
    · intro w pol hv hcnt
      by_cases hP : 1 ≤ countHits P w
      · obtain ⟨d, hdm⟩ := hb w pol hv hP
        by_cases hhit : hitKey s vocabList w = true
        · refine ⟨⟨d.count + 1, d.totalImpact + e.rating, d.type⟩,
            List.mem_append.mpr (Or.inl (List.mem_map.mpr ⟨(w, d), hdm, ?_⟩))⟩
          rw [updHit, if_pos hhit]
        · refine ⟨d, List.mem_append.mpr (Or.inl (List.mem_map.mpr ⟨(w, d), hdm, ?_⟩))⟩
          rw [updHit, if_neg hhit]
      · have hP0 : countHits P w = 0 := by omega
        have hme : matchesWord e w = true := by
          cases hx : matchesWord e w
          · rw [countHits_append_single, hx] at hcnt
            simp at hcnt
            omega
          · rfl
        have hcs : containsSub s w = true := by rw [← hmw w]; exact hme
        have hkF : hasKey m w = false := by
          cases hx : hasKey m w
          · rfl
          · exfalso
            rcases List.mem_map.mp ((hasKey_true_iff m w).mp hx) with ⟨p, hp, hpe⟩
            obtain ⟨_, h2, _, h4⟩ := ha p.1 p.2 hp
            rw [hpe] at h2
            omega
        refine ⟨⟨1, e.rating, pol⟩, List.mem_append.mpr (Or.inr ?_)⟩
        apply List.mem_map.mpr
        refine ⟨(w, pol), List.mem_filter.mpr ⟨hv, ?_⟩, rfl⟩
        show (containsSub s w && !(hasKey m w)) = true
        rw [hcs, hkF]
        rfl
    · rw [List.map_append, keys_map_updHit]
      have hNBkeys : ((vocabList.filter (fun q => containsSub s q.1 && !(hasKey m q.1))).map
          (fun q => ((q.1 : List Char), (⟨1, e.rating, q.2⟩ : TrigData)))).map Prod.fst =
          (vocabList.filter (fun q => containsSub s q.1 && !(hasKey m q.1))).map Prod.fst := by
        rw [List.map_map]
        rfl
      rw [hNBkeys]
      rw [List.nodup_append]
      refine ⟨hc, ?_, ?_⟩
      · exact vocab_keys_nodup.sublist
          ((List.filter_sublist vocabList).map Prod.fst)
      · intro a ham hanb
        rcases List.mem_map.mp hanb with ⟨q, hq, hqa⟩
        rcases List.mem_filter.mp hq with ⟨_, hqcond⟩
        rcases Bool.and_eq_true_iff.mp hqcond with ⟨_, h6⟩
        have hkF : hasKey m q.1 = false := by
          cases hx : hasKey m q.1
          · rfl
          · rw [hx] at h6; exact Bool.noConfusion h6
        rw [← hqa] at ham
        exact (hasKey_false_iff m q.1).mp hkF ham
    · rw [List.pairwise_append]
      refine ⟨?_, ?_, ?_⟩
      · rw [List.pairwise_map]
        refine List.Pairwise.imp_of_mem ?_ hd
        intro p q hp hq hrel
        have hcp : 1 ≤ countHits P p.1 := by
          obtain ⟨_, h2, _, h4⟩ := ha p.1 p.2 hp
          omega
        have hcq : 1 ≤ countHits P q.1 := by
          obtain ⟨_, h2, _, h4⟩ := ha q.1 q.2 hq
          omega
        show firstHit (P ++ [e]) (updHit e.rating s vocabList p).1 <
            firstHit (P ++ [e]) (updHit e.rating s vocabList q).1 ∨
          (firstHit (P ++ [e]) (updHit e.rating s vocabList p).1 =
            firstHit (P ++ [e]) (updHit e.rating s vocabList q).1 ∧
            vocabRank (updHit e.rating s vocabList p).1 <
              vocabRank (updHit e.rating s vocabList q).1)
        rw [updHit_fst, updHit_fst, firstHit_append_found P e p.1 hcp,
          firstHit_append_found P e q.1 hcq]
        exact hrel
      · rw [List.pairwise_map]
        refine List.Pairwise.imp_of_mem ?_
          (vocab_rank_pairwise.sublist (List.filter_sublist vocabList))
        intro q q' hq hq' hrank
        rcases List.mem_filter.mp hq with ⟨hqv, hqcond⟩
        rcases List.mem_filter.mp hq' with ⟨hqv', hqcond'⟩
        rcases Bool.and_eq_true_iff.mp hqcond with ⟨h5, h6⟩
        rcases Bool.and_eq_true_iff.mp hqcond' with ⟨h5', h6'⟩
        have hkF : hasKey m q.1 = false := by
          cases hx : hasKey m q.1
          · rfl
          · rw [hx] at h6; exact Bool.noConfusion h6
        have hkF' : hasKey m q'.1 = false := by
          cases hx : hasKey m q'.1
          · rfl
          · rw [hx] at h6'; exact Bool.noConfusion h6'
        have hme : matchesWord e q.1 = true := by rw [hmw]; exact h5
        have hme' : matchesWord e q'.1 = true := by rw [hmw]; exact h5'
        have hP0 : countHits P q.1 = 0 := hfreshKey q.1 hkF q.2 hqv
        have hP0' : countHits P q'.1 = 0 := hfreshKey q'.1 hkF' q'.2 hqv'
        show firstHit (P ++ [e]) (q.1, (⟨1, e.rating, q.2⟩ : TrigData)).1 <
            firstHit (P ++ [e]) (q'.1, (⟨1, e.rating, q'.2⟩ : TrigData)).1 ∨
          (firstHit (P ++ [e]) (q.1, (⟨1, e.rating, q.2⟩ : TrigData)).1 =
            firstHit (P ++ [e]) (q'.1, (⟨1, e.rating, q'.2⟩ : TrigData)).1 ∧
            vocabRank (q.1, (⟨1, e.rating, q.2⟩ : TrigData)).1 <
              vocabRank (q'.1, (⟨1, e.rating, q'.2⟩ : TrigData)).1)
        right
        constructor
        · show firstHit (P ++ [e]) q.1 = firstHit (P ++ [e]) q'.1
          rw [firstHit_append_new P e q.1 hP0 hme, firstHit_append_new P e q'.1 hP0' hme']
        · exact hrank
      · intro a ham b hbn
        rcases List.mem_map.mp ham with ⟨p, hp, hpa⟩
        rcases List.mem_map.mp hbn with ⟨q, hq, hqb⟩
        rcases List.mem_filter.mp hq with ⟨hqv, hqcond⟩
        rcases Bool.and_eq_true_iff.mp hqcond with ⟨h5, h6⟩
        have hkF : hasKey m q.1 = false := by
          cases hx : hasKey m q.1
          · rfl
          · rw [hx] at h6; exact Bool.noConfusion h6
        have hme : matchesWord e q.1 = true := by rw [hmw]; exact h5
        have hP0 : countHits P q.1 = 0 := hfreshKey q.1 hkF q.2 hqv
        have hcp : 1 ≤ countHits P p.1 := by
          obtain ⟨_, h2, _, h4⟩ := ha p.1 p.2 hp
          omega
        have hafst : a.1 = p.1 := by
          rw [← hpa]
          exact updHit_fst e.rating s vocabList p
        have hbfst : b.1 = q.1 := by rw [← hqb]
        left
        rw [hafst, hbfst, firstHit_append_found P e p.1 hcp,
          firstHit_append_new P e q.1 hP0 hme]
        have := (firstHit_lt_iff P p.1).mpr hcp
        omega

theorem trigInv_foldl : ∀ (rest P : List Entry) (m : TrigMap),
    TrigInv P m → TrigInv (P ++ rest) (rest.foldl processEntry m) := by
  intro rest
  induction rest with
  | nil =>
    intro P m h
    rw [List.append_nil]
    exact h
  | cons e rest ih =>
    intro P m h
    rw [List.foldl_cons]
    have hstep := trigInv_step P e m h
    have hres := ih (P ++ [e]) (processEntry m e) hstep
    rwa [List.append_assoc, List.singleton_append] at hres

theorem trigInv_nil : TrigInv [] [] := by
  refine ⟨?_, ?_, ?_, ?_⟩
  · intro w d h
    exact absurd h (List.not_mem_nil _)
  · intro w pol _ hcnt
    rw [countHits] at hcnt
    simp at hcnt
  · simp
  · exact List.Pairwise.nil

/-- The full `triggers` object satisfies the statistics invariant. -/
theorem buildTriggers_inv (entries : List Entry) :
    TrigInv entries (buildTriggers entries) := by
  have h := trigInv_foldl entries [] [] trigInv_nil
  rwa [List.nil_append] at h

/-- Membership in the `triggers` object characterised by the per-word
statistics. -/
theorem mem_buildTriggers_iff (entries : List Entry) (w : List Char) (d : TrigData) :
    (w, d) ∈ buildTriggers entries ↔
      ((w, d.type) ∈ vocabList ∧ 1 ≤ countHits entries w ∧
        d = ⟨countHits entries w, sumHits entries w, d.type⟩) := by
  obtain ⟨ha, hb, hc, hd⟩ := buildTriggers_inv entries
  constructor
  · intro hm
    obtain ⟨h1, h2, h3, h4⟩ := ha w d hm
    refine ⟨h1, by omega, ?_⟩
    rw [← h2, ← h3]
  · rintro ⟨h1, h2, h3⟩
    obtain ⟨d', hd'⟩ := hb w d.type h1 h2
    obtain ⟨h1', h2', h3', _⟩ := ha w d' hd'
    have htype : d'.type = d.type :=
      assoc_key_unique vocabList vocab_keys_nodup h1' h1
    have : d' = d := by
      rw [h3]
      rw [← h2', ← h3', ← htype]
    rw [← this]
    exact hd'

/-- C10: because matching is lower-cased substring containment and the
negative word "work" is a prefix of the positive word "workout", every entry
whose note matches "workout" also matches "work"; both words then appear in
the `triggers` object with their full occurrence count and accumulated
rating total, and a concrete journal mentioning only "workout" twice yields
both a positive Workout trigger and a negative Work trigger. -/
theorem workout_triggers_work (entries : List Entry) (e : Entry)
    (he : e ∈ entries) (hw : matchesWord e ("workout".toList) = true) :
    matchesWord e ("work".toList) = true ∧
    1 ≤ countHits entries ("workout".toList) ∧
    1 ≤ countHits entries ("work".toList) ∧
    (∃ d, (("workout".toList), d) ∈ buildTriggers entries ∧
      d = ⟨countHits entries ("workout".toList), sumHits entries ("workout".toList),
        Polarity.positive⟩) ∧
    (∃ d, (("work".toList), d) ∈ buildTriggers entries ∧
      d = ⟨countHits entries ("work".toList), sumHits entries ("work".toList),
        Polarity.negative⟩) ∧
    extractTriggers [⟨0, 4, some ("workout".toList)⟩, ⟨1, 2, some ("workout".toList)⟩] =
      [⟨("Workout".toList), Polarity.positive, 2⟩, ⟨("Work".toList), Polarity.negative, 2⟩] := by
  have hsplit : ("workout".toList : List Char) = ("work".toList) ++ ("out".toList) := by decide
  have hwork : matchesWord e ("work".toList) = true := by
    cases hte : entryText e with
    | none =>
      rw [matchesWord_of_none e hte] at hw
      exact absurd hw (by simp)
    | some s =>
      rw [matchesWord_of_some e s hte] at hw ⊢
      rw [hsplit] at hw
      exact containsSub_of_append s _ _ hw
  have hcw : 1 ≤ countHits entries ("workout".toList) :=
    (countHits_pos_iff entries _).mpr (List.any_eq_true.mpr ⟨e, he, hw⟩)
  have hck : 1 ≤ countHits entries ("work".toList) :=
    (countHits_pos_iff entries _).mpr (List.any_eq_true.mpr ⟨e, he, hwork⟩)
  refine ⟨hwork, hcw, hck, ?_, ?_, by decide⟩
  · exact ⟨_, (mem_buildTriggers_iff entries _ _).mpr
      ⟨(by decide : (("workout".toList), Polarity.positive) ∈ vocabList), hcw, rfl⟩, rfl⟩
  · exact ⟨_, (mem_buildTriggers_iff entries _ _).mpr
      ⟨(by decide : (("work".toList), Polarity.negative) ∈ vocabList), hck, rfl⟩, rfl⟩

/-- C10, witness: the theorem applied to a one-entry journal whose note is
exactly "workout". -/
theorem workout_triggers_work_witness :
    ((⟨0, 4, some ("workout".toList)⟩ : Entry) ∈
        [(⟨0, 4, some ("workout".toList)⟩ : Entry)] ∧
      matchesWord (⟨0, 4, some ("workout".toList)⟩ : Entry) ("workout".toList) = true) ∧
    (matchesWord (⟨0, 4, some ("workout".toList)⟩ : Entry) ("work".toList) = true ∧
      1 ≤ countHits [(⟨0, 4, some ("workout".toList)⟩ : Entry)] ("workout".toList) ∧
      1 ≤ countHits [(⟨0, 4, some ("workout".toList)⟩ : Entry)] ("work".toList) ∧
      (∃ d, (("workout".toList), d) ∈
          buildTriggers [(⟨0, 4, some ("workout".toList)⟩ : Entry)] ∧
        d = ⟨countHits [(⟨0, 4, some ("workout".toList)⟩ : Entry)] ("workout".toList),
          sumHits [(⟨0, 4, some ("workout".toList)⟩ : Entry)] ("workout".toList),
          Polarity.positive⟩) ∧
      (∃ d, (("work".toList), d) ∈
          buildTriggers [(⟨0, 4, some ("workout".toList)⟩ : Entry)] ∧
        d = ⟨countHits [(⟨0, 4, some ("workout".toList)⟩ : Entry)] ("work".toList),
          sumHits [(⟨0, 4, some ("workout".toList)⟩ : Entry)] ("work".toList),
          Polarity.negative⟩) ∧
      extractTriggers [⟨0, 4, some ("workout".toList)⟩, ⟨1, 2, some ("workout".toList)⟩] =
        [⟨("Workout".toList), Polarity.positive, 2⟩,
          ⟨("Work".toList), Polarity.negative, 2⟩]) :=
  ⟨⟨List.mem_singleton.mpr rfl, by decide⟩,
    workout_triggers_work [⟨0, 4, some ("workout".toList)⟩] ⟨0, 4, some ("workout".toList)⟩
      (List.mem_singleton.mpr rfl) (by decide)⟩

theorem sumHits_stress_ones :
    sumHits [⟨0, 1, some ("stress".toList)⟩, ⟨1, 1, some ("stress".toList)⟩]
      ("stress".toList) = 2 := by
  have hf : ([⟨0, 1, some ("stress".toList)⟩, ⟨1, 1, some ("stress".toList)⟩] :
      List Entry).filter (fun e => matchesWord e ("stress".toList)) =
      [⟨0, 1, some ("stress".toList)⟩, ⟨1, 1, some ("stress".toList)⟩] := rfl
  rw [sumHits, hf, sumRatings]
  simp only [List.foldl_cons, List.foldl_nil]
  norm_num

theorem sumHits_stress_fives :
    sumHits [⟨0, 5, some ("stress".toList)⟩, ⟨1, 5, some ("stress".toList)⟩]
      ("stress".toList) = 10 := by
  have hf : ([⟨0, 5, some ("stress".toList)⟩, ⟨1, 5, some ("stress".toList)⟩] :
      List Entry).filter (fun e => matchesWord e ("stress".toList)) =
      [⟨0, 5, some ("stress".toList)⟩, ⟨1, 5, some ("stress".toList)⟩] := rfl
  rw [sumHits, hf, sumRatings]
  simp only [List.foldl_cons, List.foldl_nil]
  norm_num

theorem stress_mem_ones :
    (("stress".toList), (⟨2, 2, Polarity.negative⟩ : TrigData)) ∈
      buildTriggers [⟨0, 1, some ("stress".toList)⟩, ⟨1, 1, some ("stress".toList)⟩] := by
  apply (mem_buildTriggers_iff _ _ _).mpr
  refine ⟨(by decide : (("stress".toList), Polarity.negative) ∈ vocabList), by decide, ?_⟩
  have hc : countHits [⟨0, 1, some ("stress".toList)⟩, ⟨1, 1, some ("stress".toList)⟩]
      ("stress".toList) = 2 := by decide
  rw [hc, sumHits_stress_ones]

theorem stress_mem_fives :
    (("stress".toList), (⟨2, 10, Polarity.negative⟩ : TrigData)) ∈
      buildTriggers [⟨0, 5, some ("stress".toList)⟩, ⟨1, 5, some ("stress".toList)⟩] := by
  apply (mem_buildTriggers_iff _ _ _).mpr
  refine ⟨(by decide : (("stress".toList), Polarity.negative) ∈ vocabList), by decide, ?_⟩
  have hc : countHits [⟨0, 5, some ("stress".toList)⟩, ⟨1, 5, some ("stress".toList)⟩]
      ("stress".toList) = 2 := by decide
  rw [hc, sumHits_stress_fives]

/-- C8, counterexample: two journals with the same notes but different
ratings produce identical `extractTriggers` output, although their internal
accumulated rating totals differ (2 versus 10) — so the total, while
computed, is not part of the function's observable output. -/
theorem totalImpact_not_exposed_counterexample :
    extractTriggers [⟨0, 1, some ("stress".toList)⟩, ⟨1, 1, some ("stress".toList)⟩] =
      extractTriggers [⟨0, 5, some ("stress".toList)⟩, ⟨1, 5, some ("stress".toList)⟩] ∧
    (("stress".toList), (⟨2, 2, Polarity.negative⟩ : TrigData)) ∈
      buildTriggers [⟨0, 1, some ("stress".toList)⟩, ⟨1, 1, some ("stress".toList)⟩] ∧
    (("stress".toList), (⟨2, 10, Polarity.negative⟩ : TrigData)) ∈
      buildTriggers [⟨0, 5, some ("stress".toList)⟩, ⟨1, 5, some ("stress".toList)⟩] ∧
    (2 : ℚ) ≠ 10 :=
  ⟨by decide, stress_mem_ones, stress_mem_fives, by norm_num⟩

/-- C8 (amended): the accumulated rating total is computed — every record of
the internal `triggers` object carries a `totalImpact` equal to the sum of
the ratings of the entries mentioning the word — but the map to the output
records drops it, exposing only the capitalized word, the fixed polarity and
the occurrence count. -/
theorem totalImpact_internal_amended (entries : List Entry) (w : List Char) (d : TrigData)
    (h : (w, d) ∈ buildTriggers entries) :
    d.totalImpact = sumHits entries w ∧
    d.count = countHits entries w ∧
    displayTrigger (w, d) = ⟨capitalizeWord w, d.type, d.count⟩ ∧
    extractTriggers entries =
      (sortStable freqLt (((buildTriggers entries).filter
        (fun p => decide (2 ≤ p.2.count))).map displayTrigger)).take 5 := by
  obtain ⟨ha, _, _, _⟩ := buildTriggers_inv entries
  obtain ⟨_, hcnt, himp, _⟩ := ha w d h
  exact ⟨himp, hcnt, rfl, rfl⟩

/-- C8, witness: the amended theorem applied to a two-entry journal whose
notes both read "stress". -/
theorem totalImpact_internal_amended_witness :
    ((("stress".toList), (⟨2, 2, Polarity.negative⟩ : TrigData)) ∈
      buildTriggers [⟨0, 1, some ("stress".toList)⟩, ⟨1, 1, some ("stress".toList)⟩]) ∧
    ((⟨2, 2, Polarity.negative⟩ : TrigData).totalImpact =
        sumHits [⟨0, 1, some ("stress".toList)⟩, ⟨1, 1, some ("stress".toList)⟩]
          ("stress".toList) ∧
      (⟨2, 2, Polarity.negative⟩ : TrigData).count =
        countHits [⟨0, 1, some ("stress".toList)⟩, ⟨1, 1, some ("stress".toList)⟩]
          ("stress".toList) ∧
      displayTrigger (("stress".toList), (⟨2, 2, Polarity.negative⟩ : TrigData)) =
        ⟨capitalizeWord ("stress".toList), (⟨2, 2, Polarity.negative⟩ : TrigData).type,
          (⟨2, 2, Polarity.negative⟩ : TrigData).count⟩ ∧
      extractTriggers [⟨0, 1, some ("stress".toList)⟩, ⟨1, 1, some ("stress".toList)⟩] =
        (sortStable freqLt
          (((buildTriggers [⟨0, 1, some ("stress".toList)⟩, ⟨1, 1, some ("stress".toList)⟩]).filter
            (fun p => decide (2 ≤ p.2.count))).map displayTrigger)).take 5) :=
  ⟨stress_mem_ones,
    totalImpact_internal_amended [⟨0, 1, some ("stress".toList)⟩, ⟨1, 1, some ("stress".toList)⟩]
      ("stress".toList) ⟨2, 2, Polarity.negative⟩ stress_mem_ones⟩

/-! ### Sortedness and stability of the insertion sort -/

theorem pairwise_insertStable (lt : α → α → Bool) (Q : α → α → Prop)
    (hasym : ∀ a b, lt a b = true → lt b a = false)
    (htrans : ∀ a b c, lt a b = false → lt b c = false → lt a c = false)
    (x : α) :
    ∀ l : List α,
      l.Pairwise (fun a b => lt b a = false ∧ (lt a b = false → Q a b)) →
      (∀ z ∈ l, Q x z) →
      (insertStable lt x l).Pairwise
        (fun a b => lt b a = false ∧ (lt a b = false → Q a b)) := by
  intro l
  induction l with
  | nil =>
    intro _ _
    simp [insertStable]
  | cons y l ih =>
    intro hp hq
    rw [List.pairwise_cons] at hp
    obtain ⟨hy, hl⟩ := hp
    rw [insertStable]
    by_cases h : lt y x = true
    · rw [if_pos h, List.pairwise_cons]
      refine ⟨?_, ih hl (fun z hz => hq z (List.mem_cons_of_mem y hz))⟩
      intro z hz
      rcases List.mem_cons.mp ((insertStable_perm lt x l).mem_iff.mp hz) with hzx | hzl
      · subst hzx
        refine ⟨hasym y z h, ?_⟩
        intro hyx
        rw [h] at hyx
        exact absurd hyx (by decide)
      · exact hy z hzl
    · have hyx : lt y x = false := by
        revert h
        cases lt y x <;> simp
      rw [if_neg h, List.pairwise_cons]
      refine ⟨?_, List.pairwise_cons.mpr ⟨hy, hl⟩⟩
      intro z hz
      rcases List.mem_cons.mp hz with hzy | hzl
      · subst hzy
        exact ⟨hyx, fun _ => hq z (List.mem_cons_self z l)⟩
      · exact ⟨htrans z y x (hy z hzl).1 hyx, fun _ => hq z (List.mem_cons_of_mem y hzl)⟩

theorem pairwise_sortStable (lt : α → α → Bool) (Q : α → α → Prop)
    (hasym : ∀ a b, lt a b = true → lt b a = false)
    (htrans : ∀ a b c, lt a b = false → lt b c = false → lt a c = false)
    (l : List α) (h : l.Pairwise Q) :
    (sortStable lt l).Pairwise
      (fun a b => lt b a = false ∧ (lt a b = false → Q a b)) := by
  induction l with
  | nil => simp [sortStable]
  | cons x xs ih =>
    rw [List.pairwise_cons] at h
    rw [sortStable]
    exact pairwise_insertStable lt Q hasym htrans x _ (ih h.2)
      (fun z hz => h.1 z ((mem_sortStable lt xs z).mp hz))

theorem insertStable_map (f : β → α) (lt : α → α → Bool) (x : β) :
    ∀ l : List β, insertStable lt (f x) (l.map f) =
      (insertStable (fun a b => lt (f a) (f b)) x l).map f := by
  intro l
  induction l with
  | nil => rfl
  | cons y l ih =>
    rw [List.map_cons, insertStable, insertStable]
    by_cases h : lt (f y) (f x) = true <;> simp [h, ih]

theorem sortStable_map (f : β → α) (lt : α → α → Bool) :
    ∀ l : List β, sortStable lt (l.map f) =
      (sortStable (fun a b => lt (f a) (f b)) l).map f := by
  intro l
  induction l with
  | nil => rfl
  | cons x l ih => rw [List.map_cons, sortStable, sortStable, ih, insertStable_map]

theorem freqLt_display_asym (p q : List Char × TrigData)
    (h : freqLt (displayTrigger p) (displayTrigger q) = true) :
    freqLt (displayTrigger q) (displayTrigger p) = false := by
  simp only [freqLt, displayTrigger, decide_eq_true_eq] at h
  simp only [freqLt, displayTrigger, decide_eq_false_iff_not]
  omega

theorem freqLt_display_trans (p q r : List Char × TrigData)
    (hpq : freqLt (displayTrigger p) (displayTrigger q) = false)
    (hqr : freqLt (displayTrigger q) (displayTrigger r) = false) :
    freqLt (displayTrigger p) (displayTrigger r) = false := by
  simp only [freqLt, displayTrigger, decide_eq_false_iff_not] at hpq hqr ⊢
  omega

theorem countOrder_of_stable (entries : List Entry) (p q : List Char × TrigData)
    (h1 : freqLt (displayTrigger q) (displayTrigger p) = false)
    (h2 : freqLt (displayTrigger p) (displayTrigger q) = false → fmLt entries p.1 q.1) :
    q.2.count ≤ p.2.count ∧ (p.2.count = q.2.count → fmLt entries p.1 q.1) := by
  simp only [freqLt, displayTrigger, decide_eq_false_iff_not] at h1
  refine ⟨by omega, ?_⟩
  intro heq
  apply h2
  simp only [freqLt, displayTrigger, decide_eq_false_iff_not]
  omega

/-- The ranking as the specification words it: qualifying words taken in
vocabulary iteration order, stably sorted by descending occurrence count,
truncated to five. -/
def specTriggersVocab (entries : List Entry) : List MoodTrigger :=
  (sortStable freqLt
    ((vocabList.filter (fun q => decide (2 ≤ countHits entries q.1))).map
      (fun q => (⟨capitalizeWord q.1, q.2, countHits entries q.1⟩ : MoodTrigger)))).take 5

/-- C7 (amended): extractTriggers discards every vocabulary word with fewer
than 2 occurrences, stably sorts the survivors by descending occurrence
count, and truncates to at most 5; but the stable sort runs over the
insertion order of the `triggers` object — words ordered by the first entry
mentioning them, then by scan position — so ties are broken by first-mention
order, not by the original vocabulary iteration order. -/
theorem extractTriggers_rank_amended (entries : List Entry) :
    (extractTriggers entries).length ≤ 5 ∧
    (∀ t ∈ extractTriggers entries, 2 ≤ t.frequency ∧
      ∃ w pol, (w, pol) ∈ vocabList ∧ 2 ≤ countHits entries w ∧
        t = ⟨capitalizeWord w, pol, countHits entries w⟩) ∧
    extractTriggers entries =
      ((sortStable (fun p q => freqLt (displayTrigger p) (displayTrigger q))
        ((buildTriggers entries).filter (fun p => decide (2 ≤ p.2.count)))).map
          displayTrigger).take 5 ∧
    ((sortStable (fun p q => freqLt (displayTrigger p) (displayTrigger q))
        ((buildTriggers entries).filter (fun p => decide (2 ≤ p.2.count)))).Pairwise
      (fun p q => q.2.count ≤ p.2.count ∧ (p.2.count = q.2.count → fmLt entries p.1 q.1))) := by
  obtain ⟨ha, _, _, hd⟩ := buildTriggers_inv entries
  have hlen : (extractTriggers entries).length ≤ 5 := by
    rw [extractTriggers, List.length_take]
    exact min_le_left _ _
  have hmapeq : extractTriggers entries =
      ((sortStable (fun p q => freqLt (displayTrigger p) (displayTrigger q))
        ((buildTriggers entries).filter (fun p => decide (2 ≤ p.2.count)))).map
          displayTrigger).take 5 := by
    rw [extractTriggers, sortStable_map]
  have hfilter : ((buildTriggers entries).filter
      (fun p => decide (2 ≤ p.2.count))).Pairwise
      (fun p q => fmLt entries p.1 q.1) := hd.filter _
  have hsorted := pairwise_sortStable
    (fun p q => freqLt (displayTrigger p) (displayTrigger q))
    (fun p q => fmLt entries p.1 q.1)
    freqLt_display_asym freqLt_display_trans _ hfilter
  refine ⟨hlen, ?_, hmapeq, hsorted.imp (fun h => countOrder_of_stable entries _ _ h.1 h.2)⟩
  intro t ht
  rw [extractTriggers] at ht
  have ht1 := List.take_subset 5 _ ht
  have ht2 := (mem_sortStable _ _ t).mp ht1
  rcases List.mem_map.mp ht2 with ⟨p, hpmem, hpt⟩
  rcases List.mem_filter.mp hpmem with ⟨hpbt, hpcnt⟩
  obtain ⟨hvoc, hcnt, _, _⟩ := ha p.1 p.2 hpbt
  have hcnt2 : 2 ≤ p.2.count := of_decide_eq_true hpcnt
  constructor
  · rw [← hpt]
    show 2 ≤ p.2.count
    exact hcnt2
  · refine ⟨p.1, p.2.type, hvoc, by omega, ?_⟩
    rw [← hpt, displayTrigger, hcnt]

/-- C7, counterexample: with notes "stress", "exercise stress", "exercise",
both words occur twice; the claimed vocabulary-order tie-break would list
Exercise (positive vocabulary, iterated first) before Stress, but the source
stably sorts the insertion-ordered `triggers` object, where "stress" was
inserted first (first entry), so the output is [Stress, Exercise]. -/
theorem extractTriggers_tiebreak_counterexample :
    extractTriggers
        [⟨0, 2, some ("stress".toList)⟩, ⟨1, 3, some ("exercise stress".toList)⟩,
          ⟨2, 4, some ("exercise".toList)⟩] =
      [⟨("Stress".toList), Polarity.negative, 2⟩,
        ⟨("Exercise".toList), Polarity.positive, 2⟩] ∧
    specTriggersVocab
        [⟨0, 2, some ("stress".toList)⟩, ⟨1, 3, some ("exercise stress".toList)⟩,
          ⟨2, 4, some ("exercise".toList)⟩] =
      [⟨("Exercise".toList), Polarity.positive, 2⟩,
        ⟨("Stress".toList), Polarity.negative, 2⟩] ∧
    extractTriggers
        [⟨0, 2, some ("stress".toList)⟩, ⟨1, 3, some ("exercise stress".toList)⟩,
          ⟨2, 4, some ("exercise".toList)⟩] ≠
      specTriggersVocab
        [⟨0, 2, some ("stress".toList)⟩, ⟨1, 3, some ("exercise stress".toList)⟩,
          ⟨2, 4, some ("exercise".toList)⟩] :=
  ⟨by decide, by decide, by decide⟩

/-- C7, witness: the amended theorem applied to the empty journal. -/
theorem extractTriggers_rank_amended_witness :
    (extractTriggers ([] : List Entry)).length ≤ 5 ∧
    (∀ t ∈ extractTriggers ([] : List Entry), 2 ≤ t.frequency ∧
      ∃ w pol, (w, pol) ∈ vocabList ∧ 2 ≤ countHits ([] : List Entry) w ∧
        t = ⟨capitalizeWord w, pol, countHits ([] : List Entry) w⟩) ∧
    extractTriggers ([] : List Entry) =
      ((sortStable (fun p q => freqLt (displayTrigger p) (displayTrigger q))
        ((buildTriggers ([] : List Entry)).filter (fun p => decide (2 ≤ p.2.count)))).map
          displayTrigger).take 5 ∧
    ((sortStable (fun p q => freqLt (displayTrigger p) (displayTrigger q))
        ((buildTriggers ([] : List Entry)).filter (fun p => decide (2 ≤ p.2.count)))).Pairwise
      (fun p q => q.2.count ≤ p.2.count ∧
        (p.2.count = q.2.count → fmLt ([] : List Entry) p.1 q.1))) :=
  extractTriggers_rank_amended []
